import Mathlib

/-!
A verification development for the YOLOv3 model implementation in
src/model.py.  Python/PyTorch code is shallowly embedded into Lean:
tensor operations are modelled per element, float arithmetic is modelled
by exact rationals (or reals where transcendental functions such as
sigmoid, exp and sqrt occur), Python exceptions are modelled by
Option/Except, and Python list indexing and slicing get explicit helper
functions with Python semantics (negative wrap-around, clamping slices).
-/

set_option maxHeartbeats 1000000
set_option maxRecDepth 10000

namespace Yolo

/-! ### Python-semantics helpers -/

/-- Python list indexing l[i]: non-negative indices from the front,
negative indices wrap from the back, out of range raises (none). -/
def pyListGet {α : Type} (l : List α) (i : ℤ) : Option α :=
  if 0 ≤ i then l[i.toNat]?
  else if 0 ≤ (l.length : ℤ) + i then l[((l.length : ℤ) + i).toNat]?
  else none

/-- Python list item assignment l[i] = a, with wrap-around for negative
indices; out of range raises (none). -/
def pySetIdx {α : Type} (l : List α) (i : ℤ) (a : α) : Option (List α) :=
  if 0 ≤ i then
    if i < (l.length : ℤ) then some (l.set i.toNat a) else none
  else
    if 0 ≤ (l.length : ℤ) + i then some (l.set ((l.length : ℤ) + i).toNat a) else none

/-- Python slice l[:c]: stop is c for non-negative c, len+c for negative c,
clamped into [0, len]. -/
def pySlice {α : Type} (l : List α) (c : ℤ) : List α :=
  l.take (if 0 ≤ c then c else (l.length : ℤ) + c).toNat

/-- Python/torch long() conversion of a float: truncation toward zero. -/
def pyLong (q : ℚ) : ℤ := if 0 ≤ q then ⌊q⌋ else ⌈q⌉

/-- torch clamp of an integer value into [lo, hi]. -/
def clampZ (v lo hi : ℤ) : ℤ := max lo (min v hi)

/-- Python substring test "sub in s". -/
def strContains (s sub : String) : Bool := (s.splitOn sub).length != 1

/-- The mathematical function computed by torch.sigmoid. -/
noncomputable def sigmoid (x : ℝ) : ℝ := 1 / (1 + Real.exp (-x))

/-! ### Detection head decode (`_YOLOLayer.forward`, inference branch,
src/model.py lines 193-228)

The raw prediction tensor, after the reshape/permute to
(batch, anchor, row, col, attribute), is modelled per batch element as a
function from a cell (anchor, row, col) and an attribute index to a real.
The decode is the source's sequence of in-place whole-tensor updates:
  io[..., :2]  = sigmoid(io[..., :2]) + grid
  io[..., 2:4] = exp(io[..., 2:4]) * anchor_wh      (anchor_wh = anchors/stride)
  io[..., :4] *= stride
  sigmoid_(io[..., 4:])
The grid tensor stacks (xv, yv), so attribute 0 gets the column offset and
attribute 1 the row offset. -/

structure Cell where
  a : ℕ
  row : ℕ
  col : ℕ

/-- A raw prediction tensor slice for one image: cell and attribute to value. -/
def RawP : Type := Cell → ℕ → ℝ

/-- The xy-offset grid: self.grid holds the column index at channel 0 and the
row index at channel 1. -/
def gridVal (c : Cell) (t : ℕ) : ℝ := if t = 0 then (c.col : ℝ) else (c.row : ℝ)

/-- io[..., :2] = sigmoid(io[..., :2]) + self.grid -/
noncomputable def decode_xy (p : RawP) : RawP :=
  fun c t => if t < 2 then sigmoid (p c t) + gridVal c t else p c t

/-- io[..., 2:4] = exp(io[..., 2:4]) * self.anchor_wh, where
anchor_wh = anchors / stride (anchor width at attribute 2, height at 3). -/
noncomputable def decode_wh (aw ah : ℕ → ℝ) (stride : ℝ) (p : RawP) : RawP :=
  fun c t =>
    if t = 2 then Real.exp (p c t) * (aw c.a / stride)
    else if t = 3 then Real.exp (p c t) * (ah c.a / stride)
    else p c t

/-- io[..., :4] *= self.stride -/
def scale_xywh (stride : ℝ) (p : RawP) : RawP :=
  fun c t => if t < 4 then p c t * stride else p c t

/-- torch.sigmoid_(io[..., 4:]) : objectness and every class logit get a
plain sigmoid; there is no multiplication by objectness in this branch. -/
noncomputable def sigmoid_conf (p : RawP) : RawP :=
  fun c t => if 4 ≤ t then sigmoid (p c t) else p c t

/-- The full non-export inference decode of `_YOLOLayer.forward`. -/
noncomputable def yolo_decode (aw ah : ℕ → ℝ) (stride : ℝ) (p : RawP) : RawP :=
  sigmoid_conf (scale_xywh stride (decode_wh aw ah stride (decode_xy p)))

/-! ### Conv + BatchNorm fusion (`_fuse_conv_and_bn`, src/model.py lines 764-797)

A convolution output element is the dot product of one flattened kernel row
with the input patch at that spatial position, plus the channel bias; the
fused convolution keeps kernel size, stride and padding, so both sides see
the same patch vector and the fusion is a per-output-channel affine fact. -/

/-- One output element of a convolution: channel c of the output at a fixed
spatial position, given the flattened patch v of the input there. -/
noncomputable def convOut {n m : ℕ} (W : Fin n → Fin m → ℝ) (b : Fin n → ℝ)
    (v : Fin m → ℝ) (c : Fin n) : ℝ :=
  (∑ k, W c k * v k) + b c

/-- BatchNorm2d in eval mode, per channel: gamma * (y - mean)/sqrt(var+eps) + beta. -/
noncomputable def bnEval {n : ℕ} (γ β mean var : Fin n → ℝ) (eps : ℝ)
    (y : Fin n → ℝ) (c : Fin n) : ℝ :=
  γ c * ((y c - mean c) / Real.sqrt (var c + eps)) + β c

/-- Fused weight, as built by the source:
w_bn = diag(bn.weight / sqrt(bn.eps + bn.running_var)); W' = w_bn @ W. -/
noncomputable def fuse_w {n m : ℕ} (γ var : Fin n → ℝ) (eps : ℝ)
    (W : Fin n → Fin m → ℝ) : Fin n → Fin m → ℝ :=
  fun c k => γ c / Real.sqrt (eps + var c) * W c k

/-- Fused bias, as built by the source:
b' = w_bn @ b_conv + (bn.bias - bn.weight * bn.running_mean / sqrt(bn.running_var + bn.eps)). -/
noncomputable def fuse_b {n : ℕ} (γ β mean var : Fin n → ℝ) (eps : ℝ)
    (b : Fin n → ℝ) : Fin n → ℝ :=
  fun c => γ c / Real.sqrt (eps + var c) * b c
    + (β c - γ c * mean c / Real.sqrt (var c + eps))

/-! ### Darknet weight files (`load_darknet_weights` lines 545-591,
`save_darknet_weights` lines 613-641)

A format-B file is a header -- three int32 values (major, minor, revision)
and one int64 images-seen counter -- followed by a flat stream of float32
values.  The byte-level little-endian encoding of those fixed-width fields
is not re-modelled; the stream is represented by its decoded field values,
with float payload values as exact rationals (load/save only move them, no
arithmetic is performed on them). -/

/-- Parameters of a BatchNorm2d module attached to a convolution. -/
structure BnParams where
  bias : List ℚ
  weight : List ℚ
  running_mean : List ℚ
  running_var : List ℚ
deriving DecidableEq

/-- One module of the model as seen by the weight I/O functions: a
convolutional block (module[0] = Conv2d with optional bias, module[1] =
BatchNorm2d when batch_normalize is set), or any other module kind, which
the weight I/O skips. -/
inductive DLayer where
  | conv (bn : Option BnParams) (bias : List ℚ) (weight : List ℚ)
  | other
deriving DecidableEq

/-- The model state touched by the darknet weight I/O: version, seen counter
and the aligned module list (module_define[i] and module_list[i] are fused
into one DLayer here). -/
structure DarkModel where
  version : List ℤ
  seen : ℤ
  layers : List DLayer
deriving DecidableEq

/-- A decoded format-B weight stream. -/
structure WStream where
  version : List ℤ
  seen : ℤ
  payload : List ℚ
deriving DecidableEq

/-- The floats one layer contributes to the stream, in source order:
with batch norm, bn bias, bn weight (scale), running mean, running
variance, then conv weights; without, conv bias then conv weights;
non-convolutional layers contribute nothing. -/
def dlayer_payload : DLayer → List ℚ
  | .conv (some bn) _ w => bn.bias ++ bn.weight ++ bn.running_mean ++ bn.running_var ++ w
  | .conv none b w => b ++ w
  | .other => []

/-- One iteration of the save loop: the tofile calls append this layer's
parameter floats to the file contents accumulated so far. -/
def save_layer_bytes (acc : List ℚ) : DLayer → List ℚ
  | .conv (some bn) _ w =>
      acc ++ bn.bias ++ bn.weight ++ bn.running_mean ++ bn.running_var ++ w
  | .conv none b w => acc ++ b ++ w
  | .other => acc

/-- `save_darknet_weights`: writes the header, then iterates over
module_define[:cutoff] / module_list[:cutoff] appending each convolutional
layer's parameters.  The destination path is never inspected. -/
def save_darknet_weights (m : DarkModel) (path : String) (cutoff : ℤ) : WStream :=
  let _ := path
  ⟨m.version, m.seen, (pySlice m.layers cutoff).foldl save_layer_bytes []⟩

/-- The cutoff override at the top of `load_darknet_weights`, keyed on the
basename of the weights file. -/
def forced_cutoff (file : String) (cutoff : ℤ) : ℤ :=
  if file = "darknet53.conv.74" then 75
  else if file = "yolov3-tiny.conv.15" then 15
  else cutoff

/-- numpy slice weights[ptr:ptr+n] followed by view_as/copy_: succeeds only
when n floats remain (a short slice makes view_as raise). -/
def take_exact (n : ℕ) (s : List ℚ) : Option (List ℚ × List ℚ) :=
  if n ≤ s.length then some (s.take n, s.drop n) else none

/-- Loading one layer from the stream: consumes, in order, the same
segments `dlayer_payload` describes, sized by the current parameter shapes
(the numel() calls of the source). -/
def load_layer (l : DLayer) (s : List ℚ) : Option (DLayer × List ℚ) :=
  match l with
  | .conv (some bn) b w => do
      let (bb, s1) ← take_exact bn.bias.length s
      let (bw, s2) ← take_exact bn.weight.length s1
      let (bm, s3) ← take_exact bn.running_mean.length s2
      let (bv, s4) ← take_exact bn.running_var.length s3
      let (cw, s5) ← take_exact w.length s4
      some (.conv (some ⟨bb, bw, bm, bv⟩) b cw, s5)
  | .conv none b w => do
      let (cb, s1) ← take_exact b.length s
      let (cw, s2) ← take_exact w.length s1
      some (.conv none cb cw, s2)
  | .other => some (.other, s)

/-- The load loop over the sliced module list, consuming the float stream
left to right (the source's ptr arithmetic). -/
def load_loop : List DLayer → List ℚ → Option (List DLayer × List ℚ)
  | [], s => some ([], s)
  | l :: rest, s => do
      let (l2, s2) ← load_layer l s
      let (r2, s3) ← load_loop rest s2
      some (l2 :: r2, s3)

/-- `load_darknet_weights` with the effective cutoff already resolved:
reads the header into version/seen, loads parameters into the sliced
prefix of the module list, leaves the rest untouched, ignores leftover
floats. -/
def load_darknet_at (m : DarkModel) (s : WStream) (cutoff : ℤ) : Option DarkModel := do
  let k := (pySlice m.layers cutoff).length
  let (pre, _) ← load_loop (m.layers.take k) s.payload
  some ⟨s.version, s.seen, pre ++ m.layers.drop k⟩

/-- `load_darknet_weights`: the file argument is the basename of the weights
path (Path(weights).name); it may force the cutoff. -/
def load_darknet_weights (m : DarkModel) (file : String) (s : WStream) (cutoff : ℤ) :
    Option DarkModel :=
  load_darknet_at m s (forced_cutoff file cutoff)

/-- From the spec's words (section 6, format B): per convolutional node in
graph order, if the node has a normalization node: normalization bias,
scale, running-mean, running-variance, then convolution weights; otherwise
convolution bias then convolution weights. -/
def spec_dlayer_payload : DLayer → List ℚ
  | .conv (some bn) _ w => bn.bias ++ bn.weight ++ bn.running_mean ++ bn.running_var ++ w
  | .conv none b w => b ++ w
  | .other => []

/-- From the spec's words: the whole format-B stream for a model at a given
cutoff -- header (version ints, seen counter) then the concatenated
per-layer payloads of the sliced layer list. -/
def spec_stream (m : DarkModel) (cutoff : ℤ) : WStream :=
  ⟨m.version, m.seen, (pySlice m.layers cutoff).flatMap spec_dlayer_payload⟩

/-- Modelled from the claim C5 as stated: a save that forces the cutoff from
the destination filename the same way load does.  (The source save does
not do this; see the counterexample.) -/
def spec_save_forced (m : DarkModel) (path : String) (cutoff : ℤ) : WStream :=
  spec_stream m (forced_cutoff path cutoff)

/-- A 77-convolution model with minimal parameters, used to exhibit the
save/forced-cutoff divergence. -/
def m77 : DarkModel :=
  ⟨[0, 2, 5], 0, List.replicate 77 (DLayer.conv none [0] [0])⟩

/-! ### Box geometry (`bbox_iou` lines 869-912, `wh_iou` lines 1004-1018)

Boxes are quadruples of rationals; torch elementwise operations are
modelled per element.  The literal 1e-16 is modelled as the exact rational
1/10^16.  For C7 the same computations are also instrumented with a checked
division that fails exactly when the denominator is zero, so that the
claim "never divides by zero" becomes the statement that the checked
version returns a value. -/

/-- The epsilon literal 1e-16 of the source. -/
def eps16 : ℚ := 1 / 10 ^ 16

/-- The Python scalar 4 / math.pi ** 2, as a fixed rational stand-in for the
irrational constant (only its value as a fixed nonzero scalar matters; it
is computed from literals, not from box data). -/
def fourDivPiSq : ℚ := 4 / (98696044 / 10000000)

/-- A box: four coordinates, either (x1,y1,x2,y2) or (x,y,w,h) depending on
the x1y1x2y2 flag. -/
abbrev Box : Type := ℚ × ℚ × ℚ × ℚ

/-- `bbox_iou`, with torch division modelled as total rational division.
The atn parameter stands for torch.atan (only used by the CIoU branch and
only applied, never inspected). -/
def bbox_iou (atn : ℚ → ℚ) (box1 box2 : Box) (x1y1x2y2 g_iou d_iou c_iou : Bool) : ℚ :=
  let (a1, a2, a3, a4) := box1
  let (c1, c2, c3, c4) := box2
  let b1_x1 := if x1y1x2y2 then a1 else a1 - a3 / 2
  let b1_x2 := if x1y1x2y2 then a3 else a1 + a3 / 2
  let b1_y1 := if x1y1x2y2 then a2 else a2 - a4 / 2
  let b1_y2 := if x1y1x2y2 then a4 else a2 + a4 / 2
  let b2_x1 := if x1y1x2y2 then c1 else c1 - c3 / 2
  let b2_x2 := if x1y1x2y2 then c3 else c1 + c3 / 2
  let b2_y1 := if x1y1x2y2 then c2 else c2 - c4 / 2
  let b2_y2 := if x1y1x2y2 then c4 else c2 + c4 / 2
  let inter := max (min b1_x2 b2_x2 - max b1_x1 b2_x1) 0
    * max (min b1_y2 b2_y2 - max b1_y1 b2_y1) 0
  let w1 := b1_x2 - b1_x1
  let h1 := b1_y2 - b1_y1
  let w2 := b2_x2 - b2_x1
  let h2 := b2_y2 - b2_y1
  let union := (w1 * h1 + eps16) + w2 * h2 - inter
  let iou := inter / union
  if g_iou || d_iou || c_iou then
    let cw := max b1_x2 b2_x2 - min b1_x1 b2_x1
    let ch := max b1_y2 b2_y2 - min b1_y1 b2_y1
    if g_iou then
      let c_area := cw * ch + eps16
      iou - (c_area - union) / c_area
    else
      let c2 := cw ^ 2 + ch ^ 2 + eps16
      let rho2 := ((b2_x1 + b2_x2) - (b1_x1 + b1_x2)) ^ 2 / 4
        + ((b2_y1 + b2_y2) - (b1_y1 + b1_y2)) ^ 2 / 4
      if d_iou then iou - rho2 / c2
      else if c_iou then
        let v := fourDivPiSq * (atn (w2 / h2) - atn (w1 / h1)) ^ 2
        let alpha := v / (1 - iou + v)
        iou - (rho2 / c2 + v * alpha)
      else iou
  else iou

/-- Checked division: fails exactly when torch would divide by zero. -/
def cdiv (x y : ℚ) : Except String ℚ :=
  if y = 0 then .error "division by zero" else .ok (x / y)

/-- Whether a checked computation completed without a zero division. -/
def eIsOk {α : Type} : Except String α → Bool
  | .ok _ => true
  | .error _ => false

instance {ε α : Type} [DecidableEq ε] [DecidableEq α] : DecidableEq (Except ε α) :=
  fun x y =>
    match x, y with
    | .ok a, .ok b =>
      if h : a = b then .isTrue (by rw [h])
      else .isFalse (by intro hc; injection hc; exact h (by assumption))
    | .error e, .error f =>
      if h : e = f then .isTrue (by rw [h])
      else .isFalse (by intro hc; injection hc; exact h (by assumption))
    | .ok _, .error _ => .isFalse (by intro hc; cases hc)
    | .error _, .ok _ => .isFalse (by intro hc; cases hc)

/-- The part of `bbox_iou` after the coordinate-convention branch, with
every division instrumented by `cdiv`; arguments are the eight derived
corner coordinates. -/
def bbox_iou_checked_core (atn : ℚ → ℚ)
    (b1_x1 b1_y1 b1_x2 b1_y2 b2_x1 b2_y1 b2_x2 b2_y2 : ℚ)
    (g_iou d_iou c_iou : Bool) : Except String ℚ := do
  let inter := max (min b1_x2 b2_x2 - max b1_x1 b2_x1) 0
    * max (min b1_y2 b2_y2 - max b1_y1 b2_y1) 0
  let w1 := b1_x2 - b1_x1
  let h1 := b1_y2 - b1_y1
  let w2 := b2_x2 - b2_x1
  let h2 := b2_y2 - b2_y1
  let union := (w1 * h1 + eps16) + w2 * h2 - inter
  let iou ← cdiv inter union
  if g_iou || d_iou || c_iou then
    let cw := max b1_x2 b2_x2 - min b1_x1 b2_x1
    let ch := max b1_y2 b2_y2 - min b1_y1 b2_y1
    if g_iou then
      let c_area := cw * ch + eps16
      let q ← cdiv (c_area - union) c_area
      return iou - q
    else
      let c2 := cw ^ 2 + ch ^ 2 + eps16
      let r1 ← cdiv (((b2_x1 + b2_x2) - (b1_x1 + b1_x2)) ^ 2) 4
      let r2 ← cdiv (((b2_y1 + b2_y2) - (b1_y1 + b1_y2)) ^ 2) 4
      let rho2 := r1 + r2
      if d_iou then
        let q ← cdiv rho2 c2
        return iou - q
      else if c_iou then
        let q2 ← cdiv w2 h2
        let q1 ← cdiv w1 h1
        let fp ← cdiv 4 (98696044 / 10000000)
        let v := fp * (atn q2 - atn q1) ^ 2
        let alpha ← cdiv v (1 - iou + v)
        let q ← cdiv rho2 c2
        return iou - (q + v * alpha)
      else return iou
  else return iou

/-- `bbox_iou` with every division instrumented by `cdiv`: the
coordinate-convention branch performs the xywh-to-xyxy halvings, then the
common core runs. -/
def bbox_iou_checked (atn : ℚ → ℚ) (box1 box2 : Box)
    (x1y1x2y2 g_iou d_iou c_iou : Bool) : Except String ℚ :=
  let (a1, a2, a3, a4) := box1
  let (c1, c2, c3, c4) := box2
  if x1y1x2y2 then
    bbox_iou_checked_core atn a1 a2 a3 a4 c1 c2 c3 c4 g_iou d_iou c_iou
  else do
    let ha3 ← cdiv a3 2
    let ha4 ← cdiv a4 2
    let hc3 ← cdiv c3 2
    let hc4 ← cdiv c4 2
    bbox_iou_checked_core atn (a1 - ha3) (a2 - ha4) (a1 + ha3) (a2 + ha4)
      (c1 - hc3) (c2 - hc4) (c1 + hc3) (c2 + hc4) g_iou d_iou c_iou

/-- `wh_iou` for one (anchor, target) pair -- the tensor version computes
this elementwise over the N x M matrix of pairs.  Total-division model. -/
def wh_iou (wh1 wh2 : ℚ × ℚ) : ℚ :=
  let inter := min wh1.1 wh2.1 * min wh1.2 wh2.2
  inter / (wh1.1 * wh1.2 + wh2.1 * wh2.2 - inter)

/-- `wh_iou` with its single division instrumented by `cdiv`. -/
def wh_iou_checked (wh1 wh2 : ℚ × ℚ) : Except String ℚ :=
  let inter := min wh1.1 wh2.1 * min wh1.2 wh2.2
  cdiv inter (wh1.1 * wh1.2 + wh2.1 * wh2.2 - inter)

/-- A well-formed box for the given coordinate convention: ordered
coordinates for x1y1x2y2, non-negative width/height for xywh.  Degenerate
zero-area boxes are allowed. -/
def properBox (x1y1x2y2 : Bool) (b : Box) : Prop :=
  if x1y1x2y2 then b.1 ≤ b.2.2.1 ∧ b.2.1 ≤ b.2.2.2
  else 0 ≤ b.2.2.1 ∧ 0 ≤ b.2.2.2

instance (f : Bool) (b : Box) : Decidable (properBox f b) := by
  unfold properBox
  infer_instance

/-- Area of an x1y1x2y2 box. -/
def boxArea (b : Box) : ℚ := (b.2.2.1 - b.1) * (b.2.2.2 - b.2.1)

/-! ### Layer graph construction (`_create_modules`, src/model.py lines
342-489, and `parse_model_config` output shape)

A parsed configuration block is a Python dict; keys written by the parser
are strings, but Python dict lookup accepts any key, so the key type is a
sum of strings and integers (the smart-bias code indexes a dict with the
integer 0).  Values are ints, floats, strings, int lists ("from",
"layers", "mask", multi-size "size") or anchor arrays. -/

inductive PyKey where
  | str (s : String)
  | int (n : ℤ)
deriving DecidableEq, BEq

inductive CfgVal where
  | int (n : ℤ)
  | num (q : ℚ)
  | str (s : String)
  | ints (ns : List ℤ)
  | anchors (ps : List (ℚ × ℚ))
deriving DecidableEq, BEq

/-- One parsed configuration block. -/
abbrev LayerSpec : Type := List (PyKey × CfgVal)

/-- Dict lookup with a string key: module[k]. -/
def specGet (d : LayerSpec) (k : String) : Option CfgVal :=
  List.lookup (PyKey.str k) d

/-- Whether a dict key is a string key (every key the parser writes is). -/
def PyKey.isStrKey : PyKey → Bool
  | .str _ => true
  | .int _ => false

def getInt : Option CfgVal → Option ℤ
  | some (.int n) => some n
  | _ => none

def getStr : Option CfgVal → Option String
  | some (.str s) => some s
  | _ => none

def getInts : Option CfgVal → Option (List ℤ)
  | some (.ints ns) => some ns
  | _ => none

/-- One node of the built module graph.  Parameters record the constructor
arguments used at the corresponding nn call; the MixConv2d channel split
(the least-squares solve) is not modelled, only the node's graph shape. -/
inductive Node where
  | emptySeq
  | conv (bn : Bool) (inCh outCh k strideY strideX padding groups : ℤ) (act : String)
  | mixconv (inCh outCh : ℤ) (ks : List ℤ)
  | batchnorm (ch : ℤ) (rgbSeed : Bool)
  | maxpool (k stride : ℤ) (zeroPad : Bool)
  | upsampleScale (s : ℤ)
  | upsampleSize (h w : ℤ)
  | featureConcat (layers : List ℤ)
  | weightedFusion (layers : List ℤ) (weighted : Bool)
  | yolo (anchors : List (ℚ × ℚ)) (numClasses : ℤ) (stride : ℤ) (layers : List ℤ)
  | dropout (p : ℚ)
deriving DecidableEq

/-- The builder state threaded through the layer loop. -/
structure BState where
  outputFilters : List ℤ
  routs : List ℤ
  yoloIndex : ℤ
  filters : ℤ
  nodes : List Node
deriving DecidableEq

/-- The relative/absolute reference resolution used for routs and forward
reads: i + l for negative l, l itself otherwise. -/
def resolveRef (i : ℕ) (l : ℤ) : ℤ := if l < 0 then (i : ℤ) + l else l

/-- The prior-output indices a node reads at forward time (route reads
x[l] for each l, shortcut reads outputs[l]; a yolo node only consumes the
running tensor). -/
def node_reads (i : ℕ) : Node → List ℤ
  | .featureConcat ls => ls.map (resolveRef i)
  | .weightedFusion ls _ => ls.map (resolveRef i)
  | _ => []

/-- The conv stride lookup: module["stride"] if present, else the
(stride_y, stride_x) pair. -/
def strideOf (d : LayerSpec) : Option (ℤ × ℤ) :=
  match specGet d "stride" with
  | some (.int n) => some (n, n)
  | some _ => none
  | none =>
    match specGet d "stride_y", specGet d "stride_x" with
    | some (.int y), some (.int x) => some (y, x)
    | _, _ => none

/-- Option mapM written as the explicit left-to-right loop. -/
def omapM {α β : Type} (f : α → Option β) : List α → Option (List β)
  | [] => some []
  | a :: as => do
      let b ← f a
      let bs ← omapM f as
      some (b :: bs)

/-- Lift a Python lookup to the exception monad (KeyError / IndexError /
TypeError abort construction). -/
def req {α : Type} (o : Option α) : Except String α :=
  match o with
  | some a => .ok a
  | none => .error "KeyError"

/-- The failing attribute chain of the smart-bias initialization
(src/model.py lines 460-469, inside try/except):
j = layers[yolo_index] if "from" in module else -1;
the Dropout check compares module_define[j].__class__.__name__ -- the
class name of a dict, never "Dropout" -- so j is unchanged; then
module_define[j][0] looks a dict up with the integer key 0.  Every later
line (.bias, the reshape, the additions) is unreachable because parser
dicts have only string keys, which the C4 theorem proves. -/
def smart_bias_try (module_define : List LayerSpec) (layers : List ℤ)
    (hasFrom : Bool) (yolo_index : ℤ) : Option CfgVal :=
  (if hasFrom then pyListGet layers yolo_index else some (-1)).bind fun j =>
    (pyListGet module_define j).bind fun spec =>
      List.lookup (PyKey.int 0) spec

/-- One iteration of the `_create_modules` loop over module_define. -/
def cm_step (cfgName : String) (imageH imageW : ℤ) (onnx : Bool)
    (alldefs : List LayerSpec) (i : ℕ) (d : LayerSpec) (st : BState) :
    Except String BState :=
  match specGet d "type" with
  | some (.str t) =>
    if t = "convolutional" then do
      let bnI ← req (getInt (specGet d "batch_normalize"))
      let filters ← req (getInt (specGet d "filters"))
      let bn := bnI != 0
      match specGet d "size" with
      | some (.int k) => do
        let (sy, sx) ← req (strideOf d)
        let padI ← req (getInt (specGet d "pad"))
        let act ← req (getStr (specGet d "activation"))
        let inCh ← req (pyListGet st.outputFilters (-1))
        let groups ← match specGet d "groups" with
          | none => .ok 1
          | some (.int g) => .ok g
          | some _ => .error "TypeError"
        if filters ≤ 0 || k ≤ 0 || sy ≤ 0 || sx ≤ 0 || groups ≤ 0
            || !(decide (groups ∣ inCh)) || !(decide (groups ∣ filters)) then
          .error "torch Conv2d construction error"
        else
          let padding := if padI != 0 then k / 2 else 0
          .ok { outputFilters := st.outputFilters ++ [filters],
                routs := if bn then st.routs else st.routs ++ [(i : ℤ)],
                yoloIndex := st.yoloIndex,
                filters := filters,
                nodes := st.nodes ++ [.conv bn inCh filters k sy sx padding groups act] }
      | some (.ints ks) => do
        let _ ← req (strideOf d)
        let _ ← req (getStr (specGet d "activation"))
        let inCh ← req (pyListGet st.outputFilters (-1))
        .ok { outputFilters := st.outputFilters ++ [filters],
              routs := if bn then st.routs else st.routs ++ [(i : ℤ)],
              yoloIndex := st.yoloIndex,
              filters := filters,
              nodes := st.nodes ++ [.mixconv inCh filters ks] }
      | _ => .error "TypeError"
    else if t = "BatchNorm2d" then do
      let ch ← req (pyListGet st.outputFilters (-1))
      if ch < 0 then .error "torch BatchNorm2d construction error"
      else
        .ok { outputFilters := st.outputFilters ++ [ch],
              routs := st.routs,
              yoloIndex := st.yoloIndex,
              filters := ch,
              nodes := st.nodes ++ [.batchnorm ch (i = 0 && ch == 3)] }
    else if t = "maxpool" then do
      let k ← req (getInt (specGet d "size"))
      let s ← req (getInt (specGet d "stride"))
      if k ≤ 0 || s ≤ 0 then .error "torch MaxPool2d construction error"
      else
        .ok { outputFilters := st.outputFilters ++ [st.filters],
              routs := st.routs,
              yoloIndex := st.yoloIndex,
              filters := st.filters,
              nodes := st.nodes ++ [.maxpool k s (k == 2 && s == 1)] }
    else if t = "upsample" then
      if onnx then
        let g : ℚ := ((st.yoloIndex + 1) * 2 : ℤ) / 32
        .ok { outputFilters := st.outputFilters ++ [st.filters],
              routs := st.routs,
              yoloIndex := st.yoloIndex,
              filters := st.filters,
              nodes := st.nodes
                ++ [.upsampleSize (pyLong ((imageH : ℚ) * g)) (pyLong ((imageW : ℚ) * g))] }
      else do
        let s ← req (getInt (specGet d "stride"))
        .ok { outputFilters := st.outputFilters ++ [st.filters],
              routs := st.routs,
              yoloIndex := st.yoloIndex,
              filters := st.filters,
              nodes := st.nodes ++ [.upsampleScale s] }
    else if t = "route" then do
      let ls ← req (getInts (specGet d "layers"))
      let vals ← req (omapM
        (fun l => pyListGet st.outputFilters (if l > 0 then l + 1 else l)) ls)
      .ok { outputFilters := st.outputFilters ++ [vals.sum],
            routs := st.routs ++ ls.map (resolveRef i),
            yoloIndex := st.yoloIndex,
            filters := vals.sum,
            nodes := st.nodes ++ [.featureConcat ls] }
    else if t = "shortcut" then do
      let ls ← req (getInts (specGet d "from"))
      let inCh ← req (pyListGet st.outputFilters (-1))
      .ok { outputFilters := st.outputFilters ++ [inCh],
            routs := st.routs ++ ls.map (resolveRef i),
            yoloIndex := st.yoloIndex,
            filters := inCh,
            nodes := st.nodes ++ [.weightedFusion ls (specGet d "weights_type").isSome] }
    else if t = "reorg3d" then
      .ok { outputFilters := st.outputFilters ++ [st.filters],
            routs := st.routs,
            yoloIndex := st.yoloIndex,
            filters := st.filters,
            nodes := st.nodes ++ [.emptySeq] }
    else if t = "yolo" then do
      let yi := st.yoloIndex + 1
      let strideList : List ℤ :=
        if strContains cfgName "panet" || strContains cfgName "yolov4"
            || strContains cfgName "cd53" then [8, 16, 32] else [32, 16, 8]
      let anchors ← match specGet d "anchors" with
        | some (.anchors l) => .ok l
        | _ => .error "TypeError"
      let mask ← req (getInts (specGet d "mask"))
      let sel ← req (omapM (fun mi => pyListGet anchors mi) mask)
      let ncY ← req (getInt (specGet d "classes"))
      let ls ← match specGet d "from" with
        | none => .ok ([] : List ℤ)
        | some (.ints v) => .ok v
        | some _ => .error "TypeError"
      let strideV ← req (pyListGet strideList yi)
      let _ := smart_bias_try alldefs ls (specGet d "from").isSome yi
      .ok { outputFilters := st.outputFilters ++ [st.filters],
            routs := st.routs,
            yoloIndex := yi,
            filters := st.filters,
            nodes := st.nodes ++ [.yolo sel ncY strideV ls] }
    else if t = "dropout" then do
      let p ← match specGet d "probability" with
        | some (.int n) => .ok ((n : ℚ))
        | some (.num q) => .ok q
        | _ => .error "TypeError"
      if p < 0 || 1 < p then .error "torch Dropout construction error"
      else
        .ok { outputFilters := st.outputFilters ++ [st.filters],
              routs := st.routs,
              yoloIndex := st.yoloIndex,
              filters := st.filters,
              nodes := st.nodes ++ [.dropout p] }
    else
      .ok { outputFilters := st.outputFilters ++ [st.filters],
            routs := st.routs,
            yoloIndex := st.yoloIndex,
            filters := st.filters,
            nodes := st.nodes ++ [.emptySeq] }
  | some _ => .error "TypeError"
  | none => .error "KeyError"

/-- The loop of `_create_modules` over the header-stripped spec list. -/
def cm_go (cfgName : String) (imageH imageW : ℤ) (onnx : Bool)
    (alldefs : List LayerSpec) :
    ℕ → List LayerSpec → BState → Except String BState
  | _, [], st => .ok st
  | i, d :: rest, st => do
      let st2 ← cm_step cfgName imageH imageW onnx alldefs i d st
      cm_go cfgName imageH imageW onnx alldefs (i + 1) rest st2

/-- routs_binary[r] = True for each r in routs, with Python index
semantics (negative wrap-around, IndexError out of range). -/
def set_routs : List Bool → List ℤ → Except String (List Bool)
  | mask, [] => .ok mask
  | mask, r :: rs =>
    match pySetIdx mask r true with
    | some m2 => set_routs m2 rs
    | none => .error "IndexError"

/-- `_create_modules`: pops the header record, loops over the remaining
blocks building one module per block, then builds routs_binary of length
i + 1 (i the final loop index; 1 when the loop never ran). -/
def create_modules (specs : List LayerSpec) (cfgName : String)
    (imageH imageW : ℤ) (gray onnx : Bool) :
    Except String (List Node × List Bool) :=
  match specs with
  | [] => .error "IndexError"
  | _ :: defs => do
      let st ← cm_go cfgName imageH imageW onnx defs 0 defs
        { outputFilters := [if gray then 1 else 3], routs := [],
          yoloIndex := -1, filters := 3, nodes := [] }
      let n := defs.length
      let mask ← set_routs (List.replicate (if n = 0 then 1 else n) false) st.routs
      .ok (st.nodes, mask)

/-- Whether a block is a yolo block. -/
def isYolo (d : LayerSpec) : Bool :=
  decide (specGet d "type" = some (CfgVal.str "yolo"))

/-- The value at a key is an int at least 1. -/
def intGe1 (o : Option CfgVal) : Bool :=
  match getInt o with
  | some n => decide (1 ≤ n)
  | none => false

/-- The value is a single int kernel size at least 1. -/
def sizeIntGe1 : Option CfgVal → Bool
  | some (.int k) => decide (1 ≤ k)
  | _ => false

/-- All references resolve to strictly earlier node indices. -/
def refsBack (i : ℕ) (ls : List ℤ) : Bool :=
  ls.all (fun l => if l < 0 then decide (0 ≤ (i : ℤ) + l) else decide (l < (i : ℤ)))

/-- The value is an int list satisfying p. -/
def intsOk (o : Option CfgVal) (p : List ℤ → Bool) : Bool :=
  match getInts o with
  | some ls => p ls
  | none => false

/-- A usable dropout probability in [0, 1]. -/
def probOk : Option CfgVal → Bool
  | some (.int n) => decide ((0 : ℚ) ≤ (n : ℚ)) && decide (((n : ℚ)) ≤ 1)
  | some (.num q) => decide (0 ≤ q) && decide (q ≤ 1)
  | _ => false

/-- Anchor/mask consistency: anchors is an anchor array and every mask
index hits it. -/
def anchorsMaskOk (oa om : Option CfgVal) : Bool :=
  match oa with
  | some (.anchors as) =>
    match getInts om with
    | some ms => ms.all (fun mi => decide (0 ≤ mi) && decide (mi < (as.length : ℤ)))
    | none => false
  | _ => false

/-- The optional yolo from field is absent or an int list. -/
def fromOk : Option CfgVal → Bool
  | none => true
  | some (.ints _) => true
  | some _ => false

/-- Well-formedness of one block at position i with yc yolo blocks before
it: the fields its kind reads are present with usable values, sizes and
strides are positive, convolutions are single-kernel with no groups
field, route references and shortcut references resolve to strictly
earlier nodes, at most three yolo heads appear and anchor masks index into
the anchor list. -/
def wfEntry (i yc : ℕ) (d : LayerSpec) : Bool :=
  match specGet d "type" with
  | some (.str t) =>
    if t = "convolutional" then
      (getInt (specGet d "batch_normalize")).isSome
      && intGe1 (specGet d "filters")
      && sizeIntGe1 (specGet d "size")
      && intGe1 (specGet d "stride")
      && (getInt (specGet d "pad")).isSome
      && (getStr (specGet d "activation")).isSome
      && (specGet d "groups").isNone
    else if t = "BatchNorm2d" then true
    else if t = "maxpool" then
      intGe1 (specGet d "size") && intGe1 (specGet d "stride")
    else if t = "upsample" then (getInt (specGet d "stride")).isSome
    else if t = "route" then
      intsOk (specGet d "layers") (fun ls => !ls.isEmpty && refsBack i ls)
    else if t = "shortcut" then
      intsOk (specGet d "from") (fun ls => refsBack i ls)
    else if t = "yolo" then
      anchorsMaskOk (specGet d "anchors") (specGet d "mask")
      && decide (yc < 3)
      && (getInt (specGet d "classes")).isSome
      && fromOk (specGet d "from")
    else if t = "dropout" then probOk (specGet d "probability")
    else true
  | _ => false

/-- Well-formedness of the header-stripped block list, threading the
position and the yolo count. -/
def wfList : ℕ → ℕ → List LayerSpec → Bool
  | _, _, [] => true
  | i, yc, d :: rest =>
    wfEntry i yc d && wfList (i + 1) (if isYolo d then yc + 1 else yc) rest

/-- Well-formedness of a full spec list: a header plus a non-empty
well-formed block list. -/
def wfSpecs : List LayerSpec → Bool
  | [] => false
  | _ :: defs => !defs.isEmpty && wfList 0 0 defs

/-- The invariant carried through the construction loop: after i blocks,
output_filters has i+1 positive entries, there is one node per block, all
recorded routs point at already-built nodes and every built node reads
only strictly earlier nodes. -/
structure StInv (i : ℕ) (st : BState) : Prop where
  ofLen : st.outputFilters.length = i + 1
  ofPos : ∀ f ∈ st.outputFilters, 1 ≤ f
  ndLen : st.nodes.length = i
  routsOk : ∀ r ∈ st.routs, 0 ≤ r ∧ r < (i : ℤ)
  reads : ∀ j n, st.nodes[j]? = some n → ∀ r ∈ node_reads j n, 0 ≤ r ∧ r < (j : ℤ)
  filtersPos : 1 ≤ st.filters

/-! ### Target assignment (`build_targets`, src/model.py lines 953-1001)

A target row is (image, class, x, y, w, h) as floats; a detection head
contributes its anchor_vec (anchors already divided by the stride) and the
grid sizes nx, ny taken from the prediction shape (gain = shape[[3,2,3,2]]
= (nx, ny, nx, ny)).  torch .long() is truncation toward zero (pyLong),
clamp_ is clampZ.  Because gi, gj are views into gij, the in-place clamp_
on line 995 mutates gij before line 996 computes tbox, so tbox uses the
clamped cell indices. -/

structure Tgt where
  img : ℚ
  cid : ℚ
  cx : ℚ
  cy : ℚ
  bw : ℚ
  bh : ℚ
deriving DecidableEq

structure YoloHead where
  anchorVec : List (ℚ × ℚ)
  nx : ℕ
  ny : ℕ
deriving DecidableEq

structure TModel where
  heads : List YoloHead
  num_classes : ℤ
  iou_t : ℚ
deriving DecidableEq

structure HeadTargets where
  tcls : List ℤ
  tbox : List (ℚ × ℚ × ℚ × ℚ)
  indices : List (ℤ × ℕ × ℤ × ℤ)
  anch : List (ℚ × ℚ)
deriving DecidableEq

/-- The anchor-target matching: for each anchor index (outer), keep each
scaled target (inner, original order) whose width/height IoU with the
anchor exceeds iou_t -- the row-major boolean mask over the (na, nt)
matrix of `wh_iou(anchors, t[:, 4:6]) > iou_t`. -/
def keptPairs (iou_t : ℚ) (anchorVec : List (ℚ × ℚ)) (scaled : List Tgt) :
    List (ℕ × Tgt) :=
  (anchorVec.enum).flatMap (fun p =>
    (scaled.filter (fun t => decide (iou_t < wh_iou p.2 (t.bw, t.bh)))).map
      (fun t => (p.1, t)))

/-- One iteration of the per-head loop of `build_targets`: scale targets
into grid units (x,w by nx; y,h by ny), filter by anchor wh-IoU, truncate
and clamp cell indices, and run the class-range assert -- which fires only
when at least one pair was kept and the maximum kept class id reaches
num_classes (c.max() < nc fails iff some kept class id is >= nc). -/
def perHead (nc : ℤ) (iou_t : ℚ) (h : YoloHead) (targets : List Tgt) :
    Except String HeadTargets :=
  let scaled := targets.map (fun t =>
    { t with cx := t.cx * (h.nx : ℚ), cy := t.cy * (h.ny : ℚ),
             bw := t.bw * (h.nx : ℚ), bh := t.bh * (h.ny : ℚ) })
  let kept := keptPairs iou_t h.anchorVec scaled
  let cs := kept.map (fun p => pyLong p.2.cid)
  let gjc := fun t : Tgt => clampZ (pyLong t.cy) 0 ((h.ny : ℤ) - 1)
  let gic := fun t : Tgt => clampZ (pyLong t.cx) 0 ((h.nx : ℤ) - 1)
  let idx := kept.map (fun p => (pyLong p.2.img, p.1, gjc p.2, gic p.2))
  let tbox := kept.map (fun p =>
    (p.2.cx - (gic p.2 : ℚ), p.2.cy - (gjc p.2 : ℚ), p.2.bw, p.2.bh))
  let anch := kept.map (fun p => h.anchorVec.getD p.1 (0, 0))
  if !kept.isEmpty && cs.any (fun v => decide (nc ≤ v)) then
    .error "AssertionError"
  else
    .ok ⟨cs, tbox, idx, anch⟩

/-- The loop over detection heads (errors abort the whole call). -/
def build_targets_go (nc : ℤ) (iou_t : ℚ) (targets : List Tgt) :
    List YoloHead → Except String (List HeadTargets)
  | [] => .ok []
  | h :: rest => do
      let r ← perHead nc iou_t h targets
      let rs ← build_targets_go nc iou_t targets rest
      .ok (r :: rs)

/-- `build_targets`. -/
def build_targets (m : TModel) (targets : List Tgt) :
    Except String (List HeadTargets) :=
  build_targets_go m.num_classes m.iou_t targets m.heads

/-! ### Weighted feature fusion (`_WeightedFeatureFusion`, src/model.py
lines 303-339)

A feature map is a list of channels, each channel a list of spatial
values; every tensor operation of the forward acts channel-wise and
pointwise over spatial positions, and the channel-slice assignments
x[:, :na] act on the channel list. -/

abbrev FMap : Type := List (List ℝ)

/-- Tensor times scalar (x * w[i]). -/
def tscale (c : ℝ) (x : FMap) : FMap := x.map (List.map (fun v => v * c))

/-- Pointwise addition of two equal-shape channels. -/
def chanAdd (x a : List ℝ) : List ℝ := List.zipWith (fun u v => u + v) x a

/-- One fusion step of the forward loop: x = x + a under the
channel-count-mismatch policy -- equal counts add elementwise; a narrower
source adds into the leading channels of x (x[:, :na] = x[:, :na] + a);
a wider source is truncated to x's channel count (x = x + a[:, :nx]). -/
def fusionAdd (x a : FMap) : FMap :=
  if x.length = a.length then List.zipWith chanAdd x a
  else if a.length < x.length then
    List.zipWith chanAdd (x.take a.length) a ++ x.drop a.length
  else List.zipWith chanAdd x (a.take x.length)

/-- `_WeightedFeatureFusion.forward`: srcs are the prior outputs selected
by self.layers, in order.  With weighting enabled, w = sigmoid(raw) * 2/n
where n = len(layers) + 1; x is scaled by w[0] and source i by w[i+1]
before fusion. -/
noncomputable def wff_forward (weighted : Bool) (wRaw : ℕ → ℝ) (x : FMap)
    (srcs : List FMap) : FMap :=
  let n : ℕ := srcs.length + 1
  let x0 := if weighted then tscale (sigmoid (wRaw 0) * (2 / (n : ℝ))) x else x
  (srcs.enum).foldl
    (fun acc p =>
      fusionAdd acc
        (if weighted then tscale (sigmoid (wRaw (p.1 + 1)) * (2 / (n : ℝ))) p.2
         else p.2))
    x0

end Yolo

namespace Yolo

/-! ### Theorems for C1 and C2 -/

/-- C2: the single convolution produced by `_fuse_conv_and_bn` computes, on
every input patch and in every output channel, exactly the value of the
original convolution followed by the batch-normalization in eval mode.
Exact equality of the real-valued models implies the claimed
floating-point-tolerance agreement. -/
theorem C2_fuse_conv_bn_equiv {n m : ℕ} (γ β mean var : Fin n → ℝ) (eps : ℝ)
    (W : Fin n → Fin m → ℝ) (b : Fin n → ℝ) (v : Fin m → ℝ) (c : Fin n) :
    convOut (fuse_w γ var eps W) (fuse_b γ β mean var eps b) v c
      = bnEval γ β mean var eps (convOut W b v) c := by
  simp only [convOut, bnEval, fuse_w, fuse_b]
  rw [show var c + eps = eps + var c from add_comm _ _]
  simp only [div_eq_mul_inv]
  rw [show (∑ k, γ c * (Real.sqrt (eps + var c))⁻¹ * W c k * v k)
        = γ c * (Real.sqrt (eps + var c))⁻¹ * ∑ k, W c k * v k by
      rw [Finset.mul_sum]; exact Finset.sum_congr rfl fun k _ => by ring]
  ring

/-- C1 (amended): in non-export inference mode the decode returns, per
(anchor, row, col): absolute center = (sigmoid of raw xy + cell offset) *
stride, absolute width/height = exp(raw wh) * (anchor dimension / stride) *
stride, and objectness and every class score equal the plain sigmoid of
their logits -- the class scores are not multiplied by the objectness in
this branch (that multiplication exists only in the export branch). -/
theorem C1_decode_spec (aw ah : ℕ → ℝ) (stride : ℝ) (p : RawP) (c : Cell) :
    yolo_decode aw ah stride p c 0 = (sigmoid (p c 0) + c.col) * stride
  ∧ yolo_decode aw ah stride p c 1 = (sigmoid (p c 1) + c.row) * stride
  ∧ yolo_decode aw ah stride p c 2 = Real.exp (p c 2) * (aw c.a / stride) * stride
  ∧ yolo_decode aw ah stride p c 3 = Real.exp (p c 3) * (ah c.a / stride) * stride
  ∧ ∀ k, yolo_decode aw ah stride p c (4 + k) = sigmoid (p c (4 + k)) := by
  refine ⟨?_, ?_, ?_, ?_, ?_⟩
  · simp [yolo_decode, sigmoid_conf, scale_xywh, decode_wh, decode_xy, gridVal]
  · simp [yolo_decode, sigmoid_conf, scale_xywh, decode_wh, decode_xy, gridVal]
  · simp [yolo_decode, sigmoid_conf, scale_xywh, decode_wh, decode_xy, gridVal]
  · simp [yolo_decode, sigmoid_conf, scale_xywh, decode_wh, decode_xy, gridVal]
  · intro k
    have h2 : ¬(4 + k = 2) := by omega
    have h3 : ¬(4 + k = 3) := by omega
    have h4 : ¬(4 + k < 2) := by omega
    have h5 : 4 ≤ 4 + k := by omega
    simp [yolo_decode, sigmoid_conf, scale_xywh, decode_wh, decode_xy, h2, h3, h4, h5]

/-! ### Lemmas and theorems for C3 and C5 -/

theorem save_layer_bytes_eq (acc : List ℚ) (l : DLayer) :
    save_layer_bytes acc l = acc ++ dlayer_payload l := by
  rcases l with ⟨bn, b, w⟩ | _
  · rcases bn with _ | bn <;> simp [save_layer_bytes, dlayer_payload]
  · simp [save_layer_bytes, dlayer_payload]

theorem save_foldl_eq_flat (ls : List DLayer) (acc : List ℚ) :
    ls.foldl save_layer_bytes acc = acc ++ ls.flatMap dlayer_payload := by
  induction ls generalizing acc with
  | nil => simp
  | cons l rest ih => simp [List.foldl_cons, save_layer_bytes_eq, ih]

theorem take_exact_prefix (x r : List ℚ) : take_exact x.length (x ++ r) = some (x, r) := by
  have hle : x.length ≤ (x ++ r).length := by
    rw [List.length_append]; exact Nat.le_add_right _ _
  simp [take_exact, hle, List.take_left, List.drop_left]

theorem list_split_at (n : ℕ) (s : List ℚ) (h : n ≤ s.length) :
    ∃ x d, s = x ++ d ∧ x.length = n ∧ d.length = s.length - n :=
  ⟨s.take n, s.drop n, (List.take_append_drop _ _).symm,
    by rw [List.length_take]; omega, by rw [List.length_drop]⟩

theorem load_layer_exact (l : DLayer) (s1 t : List ℚ)
    (h : s1.length = (dlayer_payload l).length) :
    ∃ l2, load_layer l (s1 ++ t) = some (l2, t) ∧ dlayer_payload l2 = s1 := by
  rcases l with ⟨bn, b, w⟩ | _
  · rcases bn with _ | bn
    · simp only [dlayer_payload, List.length_append] at h
      obtain ⟨x1, d1, rfl, e1, -⟩ := list_split_at b.length s1 (by omega)
      simp only [List.length_append] at h
      have e2 : d1.length = w.length := by omega
      refine ⟨.conv none x1 d1, ?_, by simp [dlayer_payload]⟩
      rw [List.append_assoc]
      simp only [load_layer, ← e1, ← e2, take_exact_prefix, Option.bind_eq_bind,
        Option.some_bind]
    · simp only [dlayer_payload, List.length_append] at h
      obtain ⟨x1, r1, rfl, e1, -⟩ := list_split_at bn.bias.length s1 (by omega)
      simp only [List.length_append] at h
      obtain ⟨x2, r2, rfl, e2, -⟩ := list_split_at bn.weight.length r1 (by omega)
      simp only [List.length_append] at h
      obtain ⟨x3, r3, rfl, e3, -⟩ := list_split_at bn.running_mean.length r2 (by omega)
      simp only [List.length_append] at h
      obtain ⟨x4, x5, rfl, e4, -⟩ := list_split_at bn.running_var.length r3 (by omega)
      simp only [List.length_append] at h
      have e5 : x5.length = w.length := by omega
      refine ⟨.conv (some ⟨x1, x2, x3, x4⟩) b x5, ?_, by simp [dlayer_payload]⟩
      simp only [List.append_assoc]
      simp only [load_layer, ← e1, ← e2, ← e3, ← e4, ← e5, take_exact_prefix,
        Option.bind_eq_bind, Option.some_bind]
  · have h0 : s1 = [] := List.length_eq_zero.mp (by simpa [dlayer_payload] using h)
    subst h0
    exact ⟨.other, by simp [load_layer], rfl⟩

theorem load_loop_exact (ls : List DLayer) (s1 t : List ℚ)
    (h : s1.length = (ls.flatMap dlayer_payload).length) :
    ∃ ls2, load_loop ls (s1 ++ t) = some (ls2, t)
      ∧ ls2.flatMap dlayer_payload = s1 ∧ ls2.length = ls.length := by
  induction ls generalizing s1 with
  | nil =>
    simp only [List.flatMap_nil, List.length_nil, List.length_eq_zero] at h
    exact ⟨[], by simp [load_loop, h], by simp [h], rfl⟩
  | cons l rest ih =>
    simp only [List.flatMap_cons, List.length_append] at h
    obtain ⟨x1, d1, rfl, e1, -⟩ := list_split_at (dlayer_payload l).length s1 (by omega)
    simp only [List.length_append] at h
    obtain ⟨l2, hl2, hp2⟩ := load_layer_exact l x1 (d1 ++ t) e1
    obtain ⟨ls2, hls2, hps2, hlen2⟩ := ih d1 (by omega)
    refine ⟨l2 :: ls2, ?_, ?_, by simp [hlen2]⟩
    · rw [List.append_assoc]
      simp only [load_loop, hl2, Option.bind_eq_bind, Option.some_bind, hls2]
    · simp only [List.flatMap_cons, hp2, hps2]

/-- C3: loading a well-formed format-B stream (one whose payload length
matches the parameter count of the sliced layer list) and saving with the
same cutoff reproduces the original stream exactly: header and payload.
The hypothesis on forced_cutoff says the file basename is not one of the
two special-cased pretrained names, so the passed cutoff is the one used. -/
theorem C3_roundtrip (m : DarkModel) (file path : String) (s : WStream) (c : ℤ)
    (hf : forced_cutoff file c = c)
    (hlen : s.payload.length = ((pySlice m.layers c).flatMap dlayer_payload).length) :
    ∃ m2, load_darknet_weights m file s c = some m2
      ∧ save_darknet_weights m2 path c = s := by
  obtain ⟨ver, seen, payload⟩ := s
  simp only [load_darknet_weights, hf, load_darknet_at]
  have hple : (pySlice m.layers c).length ≤ m.layers.length := by
    rw [pySlice, List.length_take]; exact Nat.min_le_right _ _
  have htk : m.layers.take (pySlice m.layers c).length = pySlice m.layers c := by
    rw [pySlice, List.length_take, List.take_eq_take]
    rw [Nat.min_assoc, Nat.min_self]
  rw [htk]
  obtain ⟨ls2, hload, hflat, hlen2⟩ :=
    load_loop_exact (pySlice m.layers c) payload [] (by simpa using hlen)
  rw [List.append_nil] at hload
  refine ⟨_, by rw [hload]; rfl, ?_⟩
  simp only [save_darknet_weights, save_foldl_eq_flat, List.nil_append]
  have hslice : pySlice (ls2 ++ m.layers.drop (pySlice m.layers c).length) c = ls2 := by
    have hlen3 : (ls2 ++ m.layers.drop (pySlice m.layers c).length).length
        = m.layers.length := by
      rw [List.length_append, hlen2, List.length_drop]
      omega
    rw [pySlice, hlen3]
    have hlen4 : ls2.length
        = min (if 0 ≤ c then c else (m.layers.length : ℤ) + c).toNat m.layers.length := by
      rw [hlen2, pySlice, List.length_take]
    rcases le_or_lt ((if 0 ≤ c then c else (m.layers.length : ℤ) + c).toNat)
      m.layers.length with hc | hc
    · have hx : ls2.length = (if 0 ≤ c then c else (m.layers.length : ℤ) + c).toNat := by
        rw [hlen4]; exact Nat.min_eq_left hc
      rw [← hx, List.take_left]
    · have hx : (pySlice m.layers c).length = m.layers.length := by
        rw [pySlice, List.length_take]; exact Nat.min_eq_right (le_of_lt hc)
      rw [hx, List.drop_length, List.append_nil]
      apply List.take_of_length_le
      rw [hlen2, hx]
      exact le_of_lt hc
  rw [hslice, hflat]

/-- C5 (amended): the save and load functions use the claimed byte layout --
header (three int32 version fields, one int64 seen counter) followed, per
convolutional node of the sliced module list in graph order, by the
normalization bias, scale, running-mean and running-variance then the
convolution weights when the node has batch normalization, otherwise the
convolution bias then the convolution weights; the cutoff is forced to 75
for a file named darknet53.conv.74 and to 15 for yolov3-tiny.conv.15 when
loading (and is taken as passed for any other name), while saving uses the
passed cutoff. -/
theorem C5_stream_layout :
    (∀ (m : DarkModel) (path : String) (c : ℤ),
        save_darknet_weights m path c = spec_stream m c)
  ∧ (∀ (m : DarkModel) (file : String) (s : WStream) (c : ℤ),
        load_darknet_weights m file s c = load_darknet_at m s (forced_cutoff file c))
  ∧ (∀ c : ℤ, forced_cutoff "darknet53.conv.74" c = 75)
  ∧ (∀ c : ℤ, forced_cutoff "yolov3-tiny.conv.15" c = 15)
  ∧ (∀ c : ℤ, forced_cutoff "model.weights" c = c) := by
  refine ⟨?_, fun _ _ _ _ => rfl, fun c => by simp [forced_cutoff],
    fun c => by simp [forced_cutoff], fun c => by simp [forced_cutoff]⟩
  intro m path c
  simp only [save_darknet_weights, spec_stream, save_foldl_eq_flat, List.nil_append]
  have : dlayer_payload = spec_dlayer_payload := by
    funext l
    rcases l with ⟨bn, b, w⟩ | _
    · rcases bn with _ | bn <;> rfl
    · rfl
  rw [this]

/-- C5 counterexample: as stated, the claim applies the filename-forced
cutoff to save_darknet_weights as well.  Saving a 77-convolution model to a
file named darknet53.conv.74 with cutoff 100 writes all 77 layers (the
source save never inspects the path), while the claimed forced cutoff of 75
would write only 75. -/
theorem C5_counterexample :
    save_darknet_weights m77 "darknet53.conv.74" 100
      ≠ spec_save_forced m77 "darknet53.conv.74" 100 := by
  decide

/-- Witness for C3 at a concrete model, stream and cutoff. -/
theorem C3_roundtrip_witness :
    forced_cutoff "model.weights" 7 = 7
  ∧ (⟨[1, 2, 3], 9, [5, 6, 7]⟩ : WStream).payload.length
      = ((pySlice (⟨[0, 2, 5], 4, [DLayer.conv none [1] [2, 3], DLayer.other]⟩ :
          DarkModel).layers 7).flatMap dlayer_payload).length
  ∧ ∃ m2, load_darknet_weights
        ⟨[0, 2, 5], 4, [DLayer.conv none [1] [2, 3], DLayer.other]⟩ "model.weights"
        ⟨[1, 2, 3], 9, [5, 6, 7]⟩ 7 = some m2
      ∧ save_darknet_weights m2 "out.weights" 7 = ⟨[1, 2, 3], 9, [5, 6, 7]⟩ :=
  ⟨by decide, by decide,
    C3_roundtrip ⟨[0, 2, 5], 4, [DLayer.conv none [1] [2, 3], DLayer.other]⟩
      "model.weights" "out.weights" ⟨[1, 2, 3], 9, [5, 6, 7]⟩ 7
      (by decide) (by decide)⟩

/-! ### Lemmas and theorems for C7 and C10 -/

theorem cdiv_ok (x y : ℚ) (h : y ≠ 0) : cdiv x y = .ok (x / y) := by
  simp [cdiv, h]

theorem except_ok_bind {α β : Type} (v : α) (f : α → Except String β) :
    (Except.ok v >>= f) = f v := rfl

theorem except_error_bind {α β : Type} (e : String) (f : α → Except String β) :
    ((Except.error e : Except String α) >>= f) = .error e := rfl

theorem bbox_core_ok (atn : ℚ → ℚ) (x11 y11 x12 y12 x21 y21 x22 y22 : ℚ)
    (hx1 : x11 ≤ x12) (hy1 : y11 ≤ y12) (hx2 : x21 ≤ x22) (hy2 : y21 ≤ y22)
    (g d : Bool) :
    eIsOk (bbox_iou_checked_core atn x11 y11 x12 y12 x21 y21 x22 y22 g d false)
      = true := by
  have heps : (0 : ℚ) < eps16 := by norm_num [eps16]
  have hiw : max (min x12 x22 - max x11 x21) 0 ≤ x12 - x11 := by
    apply max_le _ (by linarith)
    have h1 := min_le_left x12 x22
    have h2 := le_max_left x11 x21
    linarith
  have hih : max (min y12 y22 - max y11 y21) 0 ≤ y12 - y11 := by
    apply max_le _ (by linarith)
    have h1 := min_le_left y12 y22
    have h2 := le_max_left y11 y21
    linarith
  have hiw0 : 0 ≤ max (min x12 x22 - max x11 x21) 0 := le_max_right _ _
  have hih0 : 0 ≤ max (min y12 y22 - max y11 y21) 0 := le_max_right _ _
  have hinter : max (min x12 x22 - max x11 x21) 0 * max (min y12 y22 - max y11 y21) 0
      ≤ (x12 - x11) * (y12 - y11) := mul_le_mul hiw hih hih0 (by linarith)
  have hw2h2 : 0 ≤ (x22 - x21) * (y22 - y21) := mul_nonneg (by linarith) (by linarith)
  have hunion : ((x12 - x11) * (y12 - y11) + eps16) + (x22 - x21) * (y22 - y21)
      - max (min x12 x22 - max x11 x21) 0 * max (min y12 y22 - max y11 y21) 0 ≠ 0 := by
    have : (0 : ℚ) < ((x12 - x11) * (y12 - y11) + eps16) + (x22 - x21) * (y22 - y21)
        - max (min x12 x22 - max x11 x21) 0 * max (min y12 y22 - max y11 y21) 0 := by
      linarith
    exact ne_of_gt this
  have hcw : 0 ≤ max x12 x22 - min x11 x21 := by
    have h1 := le_max_left x12 x22
    have h2 := min_le_left x11 x21
    linarith
  have hch : 0 ≤ max y12 y22 - min y11 y21 := by
    have h1 := le_max_left y12 y22
    have h2 := min_le_left y11 y21
    linarith
  have hcarea : (max x12 x22 - min x11 x21) * (max y12 y22 - min y11 y21) + eps16 ≠ 0 := by
    have := mul_nonneg hcw hch
    have : (0 : ℚ) < (max x12 x22 - min x11 x21) * (max y12 y22 - min y11 y21) + eps16 := by
      linarith
    exact ne_of_gt this
  have hc2 : (max x12 x22 - min x11 x21) ^ 2 + (max y12 y22 - min y11 y21) ^ 2 + eps16
      ≠ 0 := by
    have p1 : 0 ≤ (max x12 x22 - min x11 x21) ^ 2 := sq_nonneg _
    have p2 : 0 ≤ (max y12 y22 - min y11 y21) ^ 2 := sq_nonneg _
    have : (0 : ℚ) < (max x12 x22 - min x11 x21) ^ 2
        + (max y12 y22 - min y11 y21) ^ 2 + eps16 := by linarith
    exact ne_of_gt this
  have h4 : (4 : ℚ) ≠ 0 := by norm_num
  rcases g with _ | _
  · rcases d with _ | _
    · simp only [bbox_iou_checked_core, cdiv_ok _ _ hunion]
      exact rfl
    · simp only [bbox_iou_checked_core, cdiv_ok _ _ hunion, cdiv_ok _ _ h4,
        cdiv_ok _ _ hc2]
      exact rfl
  · simp only [bbox_iou_checked_core, cdiv_ok _ _ hunion, cdiv_ok _ _ hcarea]
    exact rfl

/-- C7 (amended): in the IoU, GIoU and DIoU branches of `bbox_iou`, every
division's denominator carries the 1e-16 epsilon and is provably nonzero,
so evaluating these branches on well-formed boxes (degenerate zero-area
boxes included) never divides by zero; the CIoU branch's aspect-ratio term
(w/h and the alpha denominator) and wh_iou's single denominator have no
epsilon and do divide by zero on zero-area boxes (see the counterexample). -/
theorem C7_division_safety (atn : ℚ → ℚ) (b1 b2 : Box) (f g d : Bool)
    (h1 : properBox f b1) (h2 : properBox f b2) :
    eIsOk (bbox_iou_checked atn b1 b2 f g d false) = true := by
  obtain ⟨a1, a2, a3, a4⟩ := b1
  obtain ⟨c1, c2, c3, c4⟩ := b2
  rcases f with _ | _
  · obtain ⟨h13, h14⟩ := h1
    obtain ⟨h23, h24⟩ := h2
    have h2q : (2 : ℚ) ≠ 0 := by norm_num
    have ha3 : 0 ≤ a3 / 2 := by linarith
    have ha4 : 0 ≤ a4 / 2 := by linarith
    have hc3 : 0 ≤ c3 / 2 := by linarith
    have hc4 : 0 ≤ c4 / 2 := by linarith
    simp only [bbox_iou_checked, cdiv_ok _ _ h2q, Bool.false_eq_true, if_false,
      except_ok_bind]
    exact bbox_core_ok atn _ _ _ _ _ _ _ _ (by linarith) (by linarith)
      (by linarith) (by linarith) g d
  · obtain ⟨h13, h14⟩ := h1
    obtain ⟨h23, h24⟩ := h2
    exact bbox_core_ok atn a1 a2 a3 a4 c1 c2 c3 c4 h13 h14 h23 h24 g d

/-- Witness for C7 on degenerate zero-area boxes in the GIoU branch. -/
theorem C7_division_safety_witness :
    properBox true ((0, 0, 0, 0) : Box)
  ∧ eIsOk (bbox_iou_checked (fun _ => 0) (0, 0, 0, 0) (0, 0, 0, 0) true true false false)
      = true :=
  ⟨by decide, C7_division_safety (fun _ => 0) (0, 0, 0, 0) (0, 0, 0, 0) true true false
    (by decide) (by decide)⟩

/-- C7 counterexample: the claim says every division in bbox_iou (all of
its branches) and wh_iou has an epsilon-protected denominator so that
zero-area boxes never divide by zero.  But wh_iou on two zero-area shapes
divides by zero, and so does the CIoU branch of bbox_iou (the w2/h2
aspect-ratio division) on zero-area boxes. -/
theorem C7_counterexample :
    wh_iou_checked (0, 0) (0, 0) = .error "division by zero"
  ∧ bbox_iou_checked (fun _ => 0) (0, 0, 0, 0) (0, 0, 0, 0) true false false true
      = .error "division by zero" := by
  constructor
  · norm_num [wh_iou_checked, cdiv, min_self]
  · norm_num [bbox_iou_checked, bbox_iou_checked_core, cdiv, eps16, min_self,
      max_self, except_ok_bind, except_error_bind]

theorem min_add_max_q (a b : ℚ) : min a b + max a b = a + b := min_add_max a b

/-- C10 (amended): for well-formed (coordinate-ordered, possibly
degenerate) boxes, bbox_iou with g_iou returns a value less than or equal
to the plain IoU of the same boxes; and for a box compared with itself it
returns exactly area/(area + 1e-16) -- within the epsilon of 1.0 for
ordinary boxes but, in exact arithmetic, never exactly 1.0. -/
theorem C10_giou_le_iou (atn : ℚ → ℚ) (b1 b2 : Box)
    (h1 : properBox true b1) (h2 : properBox true b2) :
    bbox_iou atn b1 b2 true true false false ≤ bbox_iou atn b1 b2 true false false false
  ∧ bbox_iou atn b1 b1 true true false false = boxArea b1 / (boxArea b1 + eps16) := by
  obtain ⟨a1, a2, a3, a4⟩ := b1
  obtain ⟨c1, c2, c3, c4⟩ := b2
  obtain ⟨ha13, ha24⟩ := h1
  obtain ⟨hc13, hc24⟩ := h2
  simp only [properBox] at ha13 ha24 hc13 hc24
  constructor
  · simp only [bbox_iou, if_true, Bool.true_or, Bool.or_self, Bool.or_false,
      Bool.false_or, if_false]
    apply sub_le_self
    apply div_nonneg
    · have heps : (0 : ℚ) < eps16 := by norm_num [eps16]
      have hiwlo : (a3 - a1) + (c3 - c1) - (max a3 c3 - min a1 c1)
          ≤ max (min a3 c3 - max a1 c1) 0 := by
        have m1 := min_add_max_q a3 c3
        have m2 := min_add_max_q a1 c1
        have := le_max_left (min a3 c3 - max a1 c1) 0
        linarith
      have hihlo : (a4 - a2) + (c4 - c2) - (max a4 c4 - min a2 c2)
          ≤ max (min a4 c4 - max a2 c2) 0 := by
        have m1 := min_add_max_q a4 c4
        have m2 := min_add_max_q a2 c2
        have := le_max_left (min a4 c4 - max a2 c2) 0
        linarith
      have hiw1 : max (min a3 c3 - max a1 c1) 0 ≤ a3 - a1 := by
        apply max_le _ (by linarith)
        have u1 := min_le_left a3 c3
        have u2 := le_max_left a1 c1
        linarith
      have hiw2 : max (min a3 c3 - max a1 c1) 0 ≤ c3 - c1 := by
        apply max_le _ (by linarith)
        have u1 := min_le_right a3 c3
        have u2 := le_max_right a1 c1
        linarith
      have hih1 : max (min a4 c4 - max a2 c2) 0 ≤ a4 - a2 := by
        apply max_le _ (by linarith)
        have u1 := min_le_left a4 c4
        have u2 := le_max_left a2 c2
        linarith
      have hih2 : max (min a4 c4 - max a2 c2) 0 ≤ c4 - c2 := by
        apply max_le _ (by linarith)
        have u1 := min_le_right a4 c4
        have u2 := le_max_right a2 c2
        linarith
      have hiw0 : 0 ≤ max (min a3 c3 - max a1 c1) 0 := le_max_right _ _
      have hih0 : 0 ≤ max (min a4 c4 - max a2 c2) 0 := le_max_right _ _
      have hcw1 : a3 - a1 ≤ max a3 c3 - min a1 c1 := by
        have u1 := le_max_left a3 c3
        have u2 := min_le_left a1 c1
        linarith
      have hcw2 : c3 - c1 ≤ max a3 c3 - min a1 c1 := by
        have u1 := le_max_right a3 c3
        have u2 := min_le_right a1 c1
        linarith
      have hch1 : a4 - a2 ≤ max a4 c4 - min a2 c2 := by
        have u1 := le_max_left a4 c4
        have u2 := min_le_left a2 c2
        linarith
      have hch2 : c4 - c2 ≤ max a4 c4 - min a2 c2 := by
        have u1 := le_max_right a4 c4
        have u2 := min_le_right a2 c2
        linarith
      have k1 : ((a3 - a1) + (c3 - c1) - max (min a3 c3 - max a1 c1) 0)
          * ((a4 - a2) + (c4 - c2) - max (min a4 c4 - max a2 c2) 0)
          ≤ (max a3 c3 - min a1 c1) * (max a4 c4 - min a2 c2) :=
        mul_le_mul (by linarith) (by linarith) (by linarith) (by linarith)
      have k2 : 0 ≤ ((a3 - a1) - max (min a3 c3 - max a1 c1) 0)
          * ((c4 - c2) - max (min a4 c4 - max a2 c2) 0) :=
        mul_nonneg (by linarith) (by linarith)
      have k3 : 0 ≤ ((c3 - c1) - max (min a3 c3 - max a1 c1) 0)
          * ((a4 - a2) - max (min a4 c4 - max a2 c2) 0) :=
        mul_nonneg (by linarith) (by linarith)
      nlinarith [k1, k2, k3]
    · have hcw0 : 0 ≤ max a3 c3 - min a1 c1 := by
        have u1 := le_max_left a3 c3
        have u2 := min_le_left a1 c1
        linarith
      have hch0 : 0 ≤ max a4 c4 - min a2 c2 := by
        have u1 := le_max_left a4 c4
        have u2 := min_le_left a2 c2
        linarith
      have := mul_nonneg hcw0 hch0
      have heps : (0 : ℚ) < eps16 := by norm_num [eps16]
      linarith
  · simp only [bbox_iou, boxArea, if_true, Bool.true_or, min_self, max_self]
    have hw : max (a3 - a1) 0 = a3 - a1 := max_eq_left (by linarith)
    have hh : max (a4 - a2) 0 = a4 - a2 := max_eq_left (by linarith)
    rw [hw, hh]
    have hU : ((a3 - a1) * (a4 - a2) + eps16) + (a3 - a1) * (a4 - a2)
        - (a3 - a1) * (a4 - a2) = (a3 - a1) * (a4 - a2) + eps16 := by ring
    rw [hU, sub_self, zero_div, sub_zero]

/-- Witness for C10 on two concrete overlapping boxes. -/
theorem C10_giou_le_iou_witness :
    properBox true ((0, 0, 2, 2) : Box)
  ∧ (bbox_iou (fun _ => 0) (0, 0, 2, 2) (1, 1, 3, 3) true true false false
      ≤ bbox_iou (fun _ => 0) (0, 0, 2, 2) (1, 1, 3, 3) true false false false
    ∧ bbox_iou (fun _ => 0) (0, 0, 2, 2) (0, 0, 2, 2) true true false false
      = boxArea (0, 0, 2, 2) / (boxArea (0, 0, 2, 2) + eps16)) :=
  ⟨by decide, C10_giou_le_iou (fun _ => 0) (0, 0, 2, 2) (1, 1, 3, 3)
    (by decide) (by decide)⟩

/-- C10 counterexample: the claim says bbox_iou with g_iou returns exactly
1.0 for a finite-area box compared with itself; for the unit box the exact
value is 10^16/(10^16 + 1), not 1 (the 1e-16 in the union denominator
never cancels). -/
theorem C10_counterexample :
    bbox_iou (fun _ => 0) (0, 0, 1, 1) (0, 0, 1, 1) true true false false
      = 10 ^ 16 / (10 ^ 16 + 1)
  ∧ ((10 ^ 16 / (10 ^ 16 + 1) : ℚ) ≠ 1) := by
  constructor
  · norm_num [bbox_iou, eps16, min_def, max_def]
  · norm_num

/-! ### Lemmas and theorems for C8 -/

theorem fusionAdd_length (x a : FMap) : (fusionAdd x a).length = x.length := by
  unfold fusionAdd
  split_ifs with h1 h2
  · rw [List.length_zipWith, h1, Nat.min_self]
  · rw [List.length_append, List.length_zipWith, List.length_take,
      List.length_drop]
    omega
  · rw [List.length_zipWith, List.length_take]
    omega

theorem foldl_fusionAdd_length (l : List (ℕ × FMap)) (f : ℕ × FMap → FMap)
    (acc : FMap) :
    (l.foldl (fun acc p => fusionAdd acc (f p)) acc).length = acc.length := by
  induction l generalizing acc with
  | nil => rfl
  | cons p rest ih => rw [List.foldl_cons, ih, fusionAdd_length]

theorem tscale_length (c : ℝ) (x : FMap) : (tscale c x).length = x.length := by
  simp [tscale]

theorem zipWith_getD {α β γ : Type} (f : α → β → γ) (l1 : List α) (l2 : List β)
    (i : ℕ) (d1 : α) (d2 : β) (dg : γ) (h1 : i < l1.length) (h2 : i < l2.length) :
    (List.zipWith f l1 l2).getD i dg = f (l1.getD i d1) (l2.getD i d2) := by
  induction l1 generalizing l2 i with
  | nil => simp at h1
  | cons a as ih =>
    cases l2 with
    | nil => simp at h2
    | cons b bs =>
      cases i with
      | zero => rfl
      | succ j =>
        simp only [List.zipWith_cons_cons, List.getD_cons_succ]
        exact ih bs j (by simpa using h1) (by simpa using h2)

theorem getD_append_left {α : Type} (u v : List α) (i : ℕ) (d : α)
    (h : i < u.length) : (u ++ v).getD i d = u.getD i d := by
  induction u generalizing i with
  | nil => simp at h
  | cons a as ih =>
    cases i with
    | zero => rfl
    | succ j => exact ih j (by simpa using h)

theorem getD_append_right {α : Type} (u v : List α) (i : ℕ) (d : α)
    (h : u.length ≤ i) : (u ++ v).getD i d = v.getD (i - u.length) d := by
  induction u generalizing i with
  | nil => simp
  | cons a as ih =>
    cases i with
    | zero => simp at h
    | succ j => simpa using ih j (by simpa using h)

theorem getD_take {α : Type} (l : List α) (n i : ℕ) (d : α) (h : i < n) :
    (l.take n).getD i d = l.getD i d := by
  induction l generalizing n i with
  | nil => simp
  | cons a as ih =>
    cases n with
    | zero => omega
    | succ m =>
      cases i with
      | zero => rfl
      | succ j => simpa using ih m j (by omega)

theorem getD_drop {α : Type} (l : List α) (n i : ℕ) (d : α) :
    (l.drop n).getD i d = l.getD (n + i) d := by
  induction l generalizing n with
  | nil => simp
  | cons a as ih =>
    cases n with
    | zero => simp
    | succ m =>
      have hidx : m + 1 + i = (m + i) + 1 := by omega
      rw [List.drop_succ_cons, ih, hidx, List.getD_cons_succ]

theorem fusionAdd_getD (x a : FMap) (c : ℕ) (hc : c < x.length) :
    (fusionAdd x a).getD c [] =
      if c < a.length then chanAdd (x.getD c []) (a.getD c []) else x.getD c [] := by
  by_cases h1 : x.length = a.length
  · rw [fusionAdd, if_pos h1, if_pos (by omega),
      zipWith_getD _ _ _ _ [] [] _ hc (by omega)]
  · by_cases h2 : a.length < x.length
    · rw [fusionAdd, if_neg h1, if_pos h2]
      rcases lt_or_le c a.length with hca | hca
      · rw [if_pos hca,
          getD_append_left _ _ _ _ (by rw [List.length_zipWith, List.length_take]; omega),
          zipWith_getD _ _ _ _ [] [] _ (by rw [List.length_take]; omega) hca,
          getD_take _ _ _ _ hca]
      · rw [if_neg (by omega),
          getD_append_right _ _ _ _ (by rw [List.length_zipWith, List.length_take]; omega),
          List.length_zipWith, List.length_take]
        have hmin : min (min a.length x.length) a.length = a.length := by omega
        rw [hmin, getD_drop]
        congr 1
        omega
    · rw [fusionAdd, if_neg h1, if_neg h2, if_pos (by omega),
        zipWith_getD _ _ _ _ [] [] _ hc (by rw [List.length_take]; omega),
        getD_take _ _ _ _ (by omega)]

theorem foldl_enumFrom_snd {α β : Type} (f : β → α → β) (l : List α) (n : ℕ) (b : β) :
    (l.enumFrom n).foldl (fun acc p => f acc p.2) b = l.foldl f b := by
  induction l generalizing n b with
  | nil => rfl
  | cons a as ih => simpa using ih (n + 1) (f b a)

/-- C8: the weighted-fusion forward (i) always returns a tensor with x's
channel count; (ii) in unweighted form is the left fold of the per-source
fusion step over the selected sources; (iii) each step adds a source into
x elementwise on the channels both have and leaves x's trailing channels
unchanged (equal counts add elementwise, a narrower source touches only
the leading channels, a wider source is truncated); and (iv) with
weighting enabled each of the n sources, x itself included, is first
scaled by sigmoid of its learnable scalar times 2/n. -/
theorem C8_weighted_fusion_spec :
    (∀ (weighted : Bool) (w : ℕ → ℝ) (x : FMap) (srcs : List FMap),
        (wff_forward weighted w x srcs).length = x.length)
  ∧ (∀ (w : ℕ → ℝ) (x : FMap) (srcs : List FMap),
        wff_forward false w x srcs = srcs.foldl fusionAdd x)
  ∧ (∀ (x a : FMap) (c : ℕ), c < x.length →
        (fusionAdd x a).getD c [] =
          if c < a.length then chanAdd (x.getD c []) (a.getD c []) else x.getD c [])
  ∧ (∀ (w : ℕ → ℝ) (x : FMap) (srcs : List FMap),
        wff_forward true w x srcs
          = wff_forward false w
              (tscale (sigmoid (w 0) * (2 / ((srcs.length + 1 : ℕ) : ℝ))) x)
              (srcs.enum.map fun p =>
                tscale (sigmoid (w (p.1 + 1)) * (2 / ((srcs.length + 1 : ℕ) : ℝ)))
                  p.2)) := by
  refine ⟨?_, ?_, ?_, ?_⟩
  · intro weighted w x srcs
    unfold wff_forward
    rw [foldl_fusionAdd_length]
    cases weighted
    · rfl
    · simp only [if_pos]
      exact tscale_length _ _
  · intro w x srcs
    unfold wff_forward
    simp only [Bool.false_eq_true, if_false]
    exact foldl_enumFrom_snd fusionAdd srcs 0 x
  · exact fusionAdd_getD
  · intro w x srcs
    unfold wff_forward
    simp only [if_pos, Bool.false_eq_true, if_false, List.length_map,
      List.enum_length]
    exact ((foldl_enumFrom_snd (fun acc a => fusionAdd acc a) _ 0 _).trans
      (List.foldl_map _ _ _ _)).symm

/-- Witness for C8: a 2-channel running tensor fused with a 3-channel
source; leading channel adds elementwise, the extra source channel is
dropped. -/
theorem C8_weighted_fusion_spec_witness :
    (0 : ℕ) < ([[(1 : ℝ)], [2]] : FMap).length
  ∧ (fusionAdd [[(1 : ℝ)], [2]] [[10], [20], [30]]).getD 0 [] =
      if 0 < ([[(10 : ℝ)], [20], [30]] : FMap).length then
        chanAdd (([[(1 : ℝ)], [2]] : FMap).getD 0 [])
          (([[(10 : ℝ)], [20], [30]] : FMap).getD 0 [])
      else ([[(1 : ℝ)], [2]] : FMap).getD 0 [] :=
  ⟨by decide, C8_weighted_fusion_spec.2.2.1 [[(1 : ℝ)], [2]] [[10], [20], [30]] 0
    (by decide)⟩

/-! ### Lemmas and theorems for C4 -/

theorem lookup_int_none (spec : LayerSpec)
    (h : ∀ p ∈ spec, p.1.isStrKey = true) :
    List.lookup (PyKey.int 0) spec = none := by
  induction spec with
  | nil => rfl
  | cons p rest ih =>
    obtain ⟨k, v⟩ := p
    rcases k with s | n
    · simp only [List.lookup]
      have hbeq : (PyKey.int 0 == PyKey.str s) = false := by rfl
      rw [hbeq]
      exact ih (fun q hq => h q (by simp [hq]))
    · have := h (PyKey.int n, v) (by simp)
      simp [PyKey.isStrKey] at this

theorem pyListGet_mem {α : Type} (l : List α) (idx : ℤ) (v : α)
    (h : pyListGet l idx = some v) : v ∈ l := by
  unfold pyListGet at h
  split_ifs at h
  · exact List.getElem?_mem h
  · exact List.getElem?_mem h

/-- C4: the smart-bias initialization can never reach the bias update --
for every spec list whose dicts carry only string keys (which is every
list the parser produces), every index j and every layers list, the try
block fails (at module_define[j][0], a KeyError on a string-keyed dict, if
not earlier), so the warning is printed and no bias is modified, even when
the preceding convolution's bias has the expected shape. -/
theorem C4_smart_bias_never_fires (module_define : List LayerSpec)
    (layers : List ℤ) (hasFrom : Bool) (yolo_index : ℤ)
    (hkeys : module_define.all (fun d => d.all (fun p => p.1.isStrKey)) = true) :
    smart_bias_try module_define layers hasFrom yolo_index = none := by
  rw [List.all_eq_true] at hkeys
  unfold smart_bias_try
  rcases hj : (if hasFrom then pyListGet layers yolo_index else some (-1)) with _ | j
  · rfl
  · show (pyListGet module_define j).bind _ = none
    rcases hspec : pyListGet module_define j with _ | spec
    · rfl
    · show List.lookup (PyKey.int 0) spec = none
      have hall := hkeys spec (pyListGet_mem _ _ _ hspec)
      rw [List.all_eq_true] at hall
      exact lookup_int_none spec hall

/-- Witness for C4: a config whose yolo block is preceded by a convolution
with the expected bias shape (18 = 3 anchors times (1 class + 5)); the
smart-bias attempt still returns nothing. -/
theorem C4_smart_bias_never_fires_witness :
    ([[(PyKey.str "type", CfgVal.str "convolutional"),
       (PyKey.str "batch_normalize", CfgVal.int 0),
       (PyKey.str "filters", CfgVal.int 18),
       (PyKey.str "size", CfgVal.int 1),
       (PyKey.str "stride", CfgVal.int 1),
       (PyKey.str "pad", CfgVal.int 1),
       (PyKey.str "activation", CfgVal.str "linear")],
      [(PyKey.str "type", CfgVal.str "yolo"),
       (PyKey.str "mask", CfgVal.ints [0, 1, 2]),
       (PyKey.str "anchors", CfgVal.anchors [(10, 13), (16, 30), (33, 23)]),
       (PyKey.str "classes", CfgVal.int 1)]].all
        (fun d => d.all (fun p => p.1.isStrKey)) = true)
  ∧ smart_bias_try
      [[(PyKey.str "type", CfgVal.str "convolutional"),
        (PyKey.str "batch_normalize", CfgVal.int 0),
        (PyKey.str "filters", CfgVal.int 18),
        (PyKey.str "size", CfgVal.int 1),
        (PyKey.str "stride", CfgVal.int 1),
        (PyKey.str "pad", CfgVal.int 1),
        (PyKey.str "activation", CfgVal.str "linear")],
       [(PyKey.str "type", CfgVal.str "yolo"),
        (PyKey.str "mask", CfgVal.ints [0, 1, 2]),
        (PyKey.str "anchors", CfgVal.anchors [(10, 13), (16, 30), (33, 23)]),
        (PyKey.str "classes", CfgVal.int 1)]] [] false (-1) = none :=
  ⟨by decide,
    C4_smart_bias_never_fires _ [] false (-1) (by decide)⟩

/-! ### Lemmas and theorems for C9 -/

theorem pyListGet_total {α : Type} (l : List α) (idx : ℤ)
    (h1 : -(l.length : ℤ) ≤ idx) (h2 : idx < (l.length : ℤ)) :
    ∃ v, pyListGet l idx = some v ∧ v ∈ l := by
  unfold pyListGet
  split_ifs with hp hn
  · have hlt : idx.toNat < l.length := by omega
    refine ⟨l.get ⟨idx.toNat, hlt⟩, ?_, List.get_mem l idx.toNat hlt⟩
    rw [List.getElem?_eq_getElem hlt]
    rfl
  · have hlt : ((l.length : ℤ) + idx).toNat < l.length := by omega
    refine ⟨l.get ⟨((l.length : ℤ) + idx).toNat, hlt⟩, ?_,
      List.get_mem l _ hlt⟩
    rw [List.getElem?_eq_getElem hlt]
    rfl
  · omega

theorem getElem?_snoc {α : Type} (l : List α) (x : α) (j : ℕ) :
    (l ++ [x])[j]? = if j < l.length then l[j]?
      else if j = l.length then some x else none := by
  induction l generalizing j with
  | nil =>
    cases j with
    | zero => rfl
    | succ k =>
      simp only [List.nil_append, List.getElem?_cons_succ, List.getElem?_nil,
        List.length_nil]
      rw [if_neg (by omega), if_neg (by omega)]
  | cons a as ih =>
    cases j with
    | zero => simp
    | succ k =>
      by_cases h1 : k < as.length
      · rw [List.cons_append, List.getElem?_cons_succ, ih, if_pos h1,
          List.length_cons, if_pos (by omega), List.getElem?_cons_succ]
      · by_cases h2 : k = as.length
        · rw [List.cons_append, List.getElem?_cons_succ, ih, if_neg h1, if_pos h2,
            List.length_cons, if_neg (by omega), if_pos (by omega)]
        · rw [List.cons_append, List.getElem?_cons_succ, ih, if_neg h1, if_neg h2,
            List.length_cons, if_neg (by omega), if_neg (by omega)]

theorem omapM_total {α β : Type} (f : α → Option β) (P : β → Prop) (ls : List α)
    (h : ∀ a ∈ ls, ∃ b, f a = some b ∧ P b) :
    ∃ bs, omapM f ls = some bs ∧ (∀ b ∈ bs, P b) ∧ bs.length = ls.length := by
  induction ls with
  | nil => exact ⟨[], rfl, by simp, rfl⟩
  | cons a as ih =>
    obtain ⟨b, hb, hPb⟩ := h a (by simp)
    obtain ⟨bs, hbs, hPbs, hlen⟩ := ih (fun x hx => h x (by simp [hx]))
    refine ⟨b :: bs, ?_, ?_, by simp [hlen]⟩
    · simp only [omapM, hb, hbs, Option.bind_eq_bind, Option.some_bind]
    · intro c hc
      rcases List.mem_cons.mp hc with rfl | hc2
      · exact hPb
      · exact hPbs c hc2

theorem sum_nonneg_int (vs : List ℤ) (h : ∀ v ∈ vs, 1 ≤ v) : 0 ≤ vs.sum := by
  induction vs with
  | nil => simp
  | cons v rest ih =>
    have h1 := h v (by simp)
    have h2 := ih (fun u hu => h u (by simp [hu]))
    simp only [List.sum_cons]
    omega

theorem sum_pos_int (vs : List ℤ) (hne : vs ≠ []) (h : ∀ v ∈ vs, 1 ≤ v) :
    1 ≤ vs.sum := by
  cases vs with
  | nil => exact absurd rfl hne
  | cons v rest =>
    have h1 := h v (by simp)
    have h2 := sum_nonneg_int rest (fun u hu => h u (by simp [hu]))
    simp only [List.sum_cons]
    omega

theorem set_routs_ok (rs : List ℤ) : ∀ (mask : List Bool),
    (∀ r ∈ rs, 0 ≤ r ∧ r < (mask.length : ℤ)) →
    ∃ m2, set_routs mask rs = .ok m2 ∧ m2.length = mask.length := by
  induction rs with
  | nil => exact fun mask _ => ⟨mask, rfl, rfl⟩
  | cons r rest ih =>
    intro mask h
    obtain ⟨hr0, hrlt⟩ := h r (by simp)
    have hset : pySetIdx mask r true = some (mask.set r.toNat true) := by
      unfold pySetIdx
      rw [if_pos hr0, if_pos hrlt]
    obtain ⟨m2, hm2, hlen⟩ := ih (mask.set r.toNat true)
      (by
        intro r2 hr2
        have := h r2 (by simp [hr2])
        simpa [List.length_set] using this)
    exact ⟨m2, by simp only [set_routs, hset, hm2], by rw [hlen, List.length_set]⟩

theorem StInv_snoc (i : ℕ) (st : BState) (hinv : StInv i st)
    (node : Node) (f2 : ℤ) (routs2 : List ℤ) (yi2 : ℤ)
    (hf2 : 1 ≤ f2)
    (hrouts : ∀ r ∈ routs2, 0 ≤ r ∧ r < (i : ℤ) + 1)
    (hreads : ∀ r ∈ node_reads i node, 0 ≤ r ∧ r < (i : ℤ)) :
    StInv (i + 1) ⟨st.outputFilters ++ [f2], routs2, yi2, f2, st.nodes ++ [node]⟩ := by
  refine ⟨?_, ?_, ?_, ?_, ?_, hf2⟩
  · simp [hinv.ofLen]
  · intro f hf
    rcases List.mem_append.mp hf with hf1 | hf2m
    · exact hinv.ofPos f hf1
    · simp only [List.mem_singleton] at hf2m
      omega
  · simp [hinv.ndLen]
  · intro r hr
    have := hrouts r hr
    omega
  · intro j n hjn
    rw [getElem?_snoc] at hjn
    split_ifs at hjn with hj1 hj2
    · exact hinv.reads j n hjn
    · injection hjn with hn
      subst hn
      rw [hj2, hinv.ndLen]
      exact hreads

theorem getInt_shape {o : Option CfgVal} {n : ℤ} (h : getInt o = some n) :
    o = some (.int n) := by
  rcases o with _ | v
  · cases h
  · rcases v with m | q | s | ns | ps
    · simp only [getInt, Option.some.injEq] at h
      rw [h]
    all_goals simp [getInt] at h

theorem getStr_shape {o : Option CfgVal} {s : String} (h : getStr o = some s) :
    o = some (.str s) := by
  rcases o with _ | v
  · cases h
  · rcases v with m | q | s2 | ns | ps
    · simp [getStr] at h
    · simp [getStr] at h
    · simp only [getStr, Option.some.injEq] at h
      rw [h]
    all_goals simp [getStr] at h

theorem getInts_shape {o : Option CfgVal} {ns : List ℤ} (h : getInts o = some ns) :
    o = some (.ints ns) := by
  rcases o with _ | v
  · cases h
  · rcases v with m | q | s2 | ns2 | ps
    · simp [getInts] at h
    · simp [getInts] at h
    · simp [getInts] at h
    · simp only [getInts, Option.some.injEq] at h
      rw [h]
    · simp [getInts] at h

theorem intGe1_spec (o : Option CfgVal) (h : intGe1 o = true) :
    ∃ n, getInt o = some n ∧ 1 ≤ n := by
  unfold intGe1 at h
  rcases hg : getInt o with _ | n
  · rw [hg] at h; cases h
  · rw [hg] at h
    exact ⟨n, rfl, by simpa using h⟩

theorem sizeIntGe1_spec (o : Option CfgVal) (h : sizeIntGe1 o = true) :
    ∃ k, o = some (.int k) ∧ 1 ≤ k := by
  rcases o with _ | v
  · cases h
  · rcases v with m | q | s2 | ns | ps
    · exact ⟨m, rfl, by simpa [sizeIntGe1] using h⟩
    all_goals cases h

theorem intsOk_spec (o : Option CfgVal) (p : List ℤ → Bool) (h : intsOk o p = true) :
    ∃ ls, o = some (.ints ls) ∧ p ls = true := by
  unfold intsOk at h
  rcases hg : getInts o with _ | ls
  · rw [hg] at h; cases h
  · rw [hg] at h
    exact ⟨ls, getInts_shape hg, h⟩

theorem refsBack_spec (i : ℕ) (ls : List ℤ) (h : refsBack i ls = true) :
    ∀ l ∈ ls, 0 ≤ resolveRef i l ∧ resolveRef i l < (i : ℤ) := by
  rw [refsBack, List.all_eq_true] at h
  intro l hl
  have := h l hl
  unfold resolveRef
  by_cases hneg : l < 0
  · rw [if_pos hneg] at this ⊢
    constructor
    · simpa using this
    · omega
  · rw [if_neg hneg] at this ⊢
    constructor
    · omega
    · simpa using this

theorem anchorsMaskOk_spec (oa om : Option CfgVal) (h : anchorsMaskOk oa om = true) :
    ∃ as ms, oa = some (.anchors as) ∧ om = some (.ints ms)
      ∧ ∀ mi ∈ ms, 0 ≤ mi ∧ mi < (as.length : ℤ) := by
  unfold anchorsMaskOk at h
  rcases oa with _ | v
  · cases h
  · rcases v with m | q | s2 | ns | ps
    · cases h
    · cases h
    · cases h
    · cases h
    · rcases hg : getInts om with _ | ms
      · rw [hg] at h; cases h
      · rw [hg] at h
        rw [List.all_eq_true] at h
        refine ⟨ps, ms, rfl, getInts_shape hg, ?_⟩
        intro mi hmi
        have := h mi hmi
        rw [Bool.and_eq_true] at this
        exact ⟨by simpa using this.1, by simpa using this.2⟩

theorem strideList_length (c : Bool) :
    ((if c then [8, 16, 32] else [32, 16, 8]) : List ℤ).length = 3 := by
  cases c <;> rfl

theorem isYolo_false_of (d : LayerSpec) (t : String)
    (ht : specGet d "type" = some (.str t)) (hne : t ≠ "yolo") :
    isYolo d = false := by
  unfold isYolo
  apply decide_eq_false
  intro hcontra
  rw [ht] at hcontra
  injection hcontra with h1
  injection h1 with h2
  exact hne h2

theorem isYolo_true_of (d : LayerSpec)
    (ht : specGet d "type" = some (.str "yolo")) :
    isYolo d = true := by
  unfold isYolo
  rw [ht]
  exact decide_eq_true rfl

theorem cm_step_ok (cfgName : String) (imageH imageW : ℤ) (onnx : Bool)
    (alldefs : List LayerSpec) (i yc : ℕ) (d : LayerSpec) (st : BState)
    (hwf : wfEntry i yc d = true) (hinv : StInv i st)
    (hyi : st.yoloIndex = (yc : ℤ) - 1) :
    ∃ st2, cm_step cfgName imageH imageW onnx alldefs i d st = .ok st2
      ∧ StInv (i + 1) st2
      ∧ st2.yoloIndex = (((if isYolo d then yc + 1 else yc) : ℕ) : ℤ) - 1 := by
  have hlastLo : -(st.outputFilters.length : ℤ) ≤ -1 := by
    rw [hinv.ofLen]
    push_cast
    omega
  have hlastHi : (-1 : ℤ) < (st.outputFilters.length : ℤ) := by
    rw [hinv.ofLen]
    push_cast
    omega
  obtain ⟨inCh, hinCh, hinChMem⟩ := pyListGet_total st.outputFilters (-1) hlastLo hlastHi
  have hinChPos : 1 ≤ inCh := hinv.ofPos inCh hinChMem
  have hroutsOld : ∀ r ∈ st.routs, 0 ≤ r ∧ r < (i : ℤ) + 1 := by
    intro r hr
    have := hinv.routsOk r hr
    omega
  cases ht : specGet d "type" with
  | none => simp [wfEntry, ht] at hwf
  | some tv =>
    cases tv with
    | int n => simp [wfEntry, ht] at hwf
    | num q => simp [wfEntry, ht] at hwf
    | ints ns => simp [wfEntry, ht] at hwf
    | anchors ps => simp [wfEntry, ht] at hwf
    | str t =>
      simp only [wfEntry, ht] at hwf
      simp only [cm_step, ht]
      by_cases ht1 : t = "convolutional"
      · rw [if_pos ht1] at hwf ⊢
        simp only [Bool.and_eq_true] at hwf
        obtain ⟨⟨⟨⟨⟨⟨hbn, hfil⟩, hsz⟩, hstr⟩, hpad⟩, hact⟩, hgr⟩ := hwf
        obtain ⟨bnv, hbnv⟩ := Option.isSome_iff_exists.mp hbn
        obtain ⟨fv, hfv, hfv1⟩ := intGe1_spec _ hfil
        obtain ⟨kv, hkv, hkv1⟩ := sizeIntGe1_spec _ hsz
        obtain ⟨sv, hsv, hsv1⟩ := intGe1_spec _ hstr
        obtain ⟨pv, hpv⟩ := Option.isSome_iff_exists.mp hpad
        obtain ⟨av, hav⟩ := Option.isSome_iff_exists.mp hact
        have hgrn : specGet d "groups" = none := Option.isNone_iff_eq_none.mp hgr
        have hstrideOf : strideOf d = some (sv, sv) := by
          unfold strideOf
          rw [getInt_shape hsv]
        simp only [hbnv, hfv, hkv, hstrideOf, hpv, hav, hinCh, hgrn, req,
          except_ok_bind]
        rw [if_neg (by
          simp only [Bool.or_eq_true, decide_eq_true_eq, Bool.not_eq_true',
            decide_eq_false_iff_not]
          rintro ((((((h | h) | h) | h) | h) | h) | h)
          · omega
          · omega
          · omega
          · omega
          · omega
          · exact h (one_dvd inCh)
          · exact h (one_dvd fv))]
        refine ⟨_, rfl, ?_, ?_⟩
        · exact StInv_snoc i st hinv _ fv _ st.yoloIndex hfv1
            (by
              by_cases hb : (bnv != 0) = true
              · rw [if_pos hb]
                exact hroutsOld
              · rw [if_neg hb]
                intro r hr
                rcases List.mem_append.mp hr with h1 | h2
                · exact hroutsOld r h1
                · simp only [List.mem_singleton] at h2
                  omega)
            (by
              intro r hr
              simp [node_reads] at hr)
        · rw [isYolo_false_of d t ht (by rw [ht1]; decide), if_neg Bool.false_ne_true]
          exact hyi
      · rw [if_neg ht1] at hwf ⊢
        by_cases ht2 : t = "BatchNorm2d"
        · rw [if_pos ht2] at hwf ⊢
          simp only [hinCh, req, except_ok_bind]
          rw [if_neg (by omega : ¬ inCh < 0)]
          refine ⟨_, rfl, ?_, ?_⟩
          · exact StInv_snoc i st hinv _ inCh _ st.yoloIndex hinChPos
              hroutsOld (by intro r hr; simp [node_reads] at hr)
          · rw [isYolo_false_of d t ht (by rw [ht2]; decide), if_neg Bool.false_ne_true]
            exact hyi
        · rw [if_neg ht2] at hwf ⊢
          by_cases ht3 : t = "maxpool"
          · rw [if_pos ht3] at hwf ⊢
            simp only [Bool.and_eq_true] at hwf
            obtain ⟨hk, hs⟩ := hwf
            obtain ⟨kv, hkv, hkv1⟩ := intGe1_spec _ hk
            obtain ⟨sv, hsv, hsv1⟩ := intGe1_spec _ hs
            simp only [hkv, hsv, req, except_ok_bind]
            rw [if_neg (by
              simp only [Bool.or_eq_true, decide_eq_true_eq]
              rintro (h | h) <;> omega)]
            refine ⟨_, rfl, ?_, ?_⟩
            · exact StInv_snoc i st hinv _ st.filters _ st.yoloIndex hinv.filtersPos
                hroutsOld (by intro r hr; simp [node_reads] at hr)
            · rw [isYolo_false_of d t ht (by rw [ht3]; decide), if_neg Bool.false_ne_true]
              exact hyi
          · rw [if_neg ht3] at hwf ⊢
            by_cases ht4 : t = "upsample"
            · rw [if_pos ht4] at hwf ⊢
              obtain ⟨sv, hsv⟩ := Option.isSome_iff_exists.mp hwf
              cases onnx with
              | true =>
                rw [if_pos rfl]
                refine ⟨_, rfl, ?_, ?_⟩
                · exact StInv_snoc i st hinv _ st.filters _ st.yoloIndex hinv.filtersPos
                    hroutsOld (by intro r hr; simp [node_reads] at hr)
                · rw [isYolo_false_of d t ht (by rw [ht4]; decide),
                    if_neg Bool.false_ne_true]
                  exact hyi
              | false =>
                rw [if_neg Bool.false_ne_true]
                simp only [hsv, req, except_ok_bind]
                refine ⟨_, rfl, ?_, ?_⟩
                · exact StInv_snoc i st hinv _ st.filters _ st.yoloIndex hinv.filtersPos
                    hroutsOld (by intro r hr; simp [node_reads] at hr)
                · rw [isYolo_false_of d t ht (by rw [ht4]; decide),
                    if_neg Bool.false_ne_true]
                  exact hyi
            · rw [if_neg ht4] at hwf ⊢
              by_cases ht5 : t = "route"
              · rw [if_pos ht5] at hwf ⊢
                obtain ⟨ls, hlsEq, hp⟩ := intsOk_spec _ _ hwf
                rw [Bool.and_eq_true] at hp
                obtain ⟨hne, hrb⟩ := hp
                have hrb2 := refsBack_spec i ls hrb
                have hget : ∀ l ∈ ls, ∃ v,
                    pyListGet st.outputFilters (if l > 0 then l + 1 else l) = some v
                    ∧ v ∈ st.outputFilters := by
                  intro l hl
                  have hb2 := hrb2 l hl
                  unfold resolveRef at hb2
                  have hidx : -(st.outputFilters.length : ℤ) ≤ (if l > 0 then l + 1 else l)
                      ∧ (if l > 0 then l + 1 else l) < (st.outputFilters.length : ℤ) := by
                    rw [hinv.ofLen]
                    push_cast
                    by_cases hln : l < 0
                    · rw [if_pos hln] at hb2
                      rw [if_neg (by omega : ¬ l > 0)]
                      omega
                    · rw [if_neg hln] at hb2
                      by_cases hl0 : l > 0
                      · rw [if_pos hl0]
                        omega
                      · rw [if_neg hl0]
                        omega
                  exact pyListGet_total st.outputFilters _ hidx.1 hidx.2
                obtain ⟨vals, hvals, hvmem, hvlen⟩ :=
                  omapM_total
                    (fun l => pyListGet st.outputFilters (if l > 0 then l + 1 else l))
                    (· ∈ st.outputFilters) ls hget
                have hvpos : ∀ v ∈ vals, 1 ≤ v := fun v hv => hinv.ofPos v (hvmem v hv)
                have hne2 : ls ≠ [] := by
                  intro hcontra
                  rw [hcontra] at hne
                  simp at hne
                have hsum : 1 ≤ vals.sum := sum_pos_int vals
                  (by
                    intro hcontra
                    rw [hcontra] at hvlen
                    exact hne2 (List.length_eq_zero.mp hvlen.symm))
                  hvpos
                simp only [hlsEq, getInts, hvals, req, except_ok_bind]
                refine ⟨_, rfl, ?_, ?_⟩
                · exact StInv_snoc i st hinv _ vals.sum _ st.yoloIndex hsum
                    (by
                      intro r hr
                      rcases List.mem_append.mp hr with h1 | h2
                      · exact hroutsOld r h1
                      · obtain ⟨l, hl, rfl⟩ := List.mem_map.mp h2
                        have := hrb2 l hl
                        omega)
                    (by
                      intro r hr
                      simp only [node_reads] at hr
                      obtain ⟨l, hl, rfl⟩ := List.mem_map.mp hr
                      exact hrb2 l hl)
                · rw [isYolo_false_of d t ht (by rw [ht5]; decide),
                    if_neg Bool.false_ne_true]
                  exact hyi
              · rw [if_neg ht5] at hwf ⊢
                by_cases ht6 : t = "shortcut"
                · rw [if_pos ht6] at hwf ⊢
                  obtain ⟨ls, hlsEq, hp⟩ := intsOk_spec _ _ hwf
                  have hrb2 := refsBack_spec i ls hp
                  simp only [hlsEq, getInts, hinCh, req, except_ok_bind]
                  refine ⟨_, rfl, ?_, ?_⟩
                  · exact StInv_snoc i st hinv _ inCh _ st.yoloIndex hinChPos
                      (by
                        intro r hr
                        rcases List.mem_append.mp hr with h1 | h2
                        · exact hroutsOld r h1
                        · obtain ⟨l, hl, rfl⟩ := List.mem_map.mp h2
                          have := hrb2 l hl
                          omega)
                      (by
                        intro r hr
                        simp only [node_reads] at hr
                        obtain ⟨l, hl, rfl⟩ := List.mem_map.mp hr
                        exact hrb2 l hl)
                  · rw [isYolo_false_of d t ht (by rw [ht6]; decide),
                      if_neg Bool.false_ne_true]
                    exact hyi
                · rw [if_neg ht6] at hwf ⊢
                  by_cases ht7 : t = "reorg3d"
                  · rw [if_pos ht7]
                    refine ⟨_, rfl, ?_, ?_⟩
                    · exact StInv_snoc i st hinv _ st.filters _ st.yoloIndex
                        hinv.filtersPos hroutsOld
                        (by intro r hr; simp [node_reads] at hr)
                    · rw [isYolo_false_of d t ht (by rw [ht7]; decide),
                        if_neg Bool.false_ne_true]
                      exact hyi
                  · rw [if_neg ht7]
                    by_cases ht8 : t = "yolo"
                    · rw [if_pos ht8] at hwf ⊢
                      simp only [Bool.and_eq_true] at hwf
                      obtain ⟨⟨⟨ham, hyc⟩, hcls⟩, hfrom⟩ := hwf
                      obtain ⟨as, ms, haS, hmS, hbound⟩ := anchorsMaskOk_spec _ _ ham
                      have hyc3 : yc < 3 := of_decide_eq_true hyc
                      obtain ⟨cv, hcv⟩ := Option.isSome_iff_exists.mp hcls
                      have hyi2 : st.yoloIndex + 1 = (yc : ℤ) := by omega
                      have hsel : ∀ mi ∈ ms, ∃ p, pyListGet as mi = some p ∧ True := by
                        intro mi hmi
                        have hb := hbound mi hmi
                        obtain ⟨p, hp, -⟩ :=
                          pyListGet_total as mi (by omega) hb.2
                        exact ⟨p, hp, trivial⟩
                      obtain ⟨sel, hselEq, -, -⟩ := omapM_total
                        (fun mi => pyListGet as mi) (fun _ => True) ms hsel
                      obtain ⟨sv, hsv, -⟩ := pyListGet_total
                        (if strContains cfgName "panet" || strContains cfgName "yolov4"
                          || strContains cfgName "cd53"
                          then ([8, 16, 32] : List ℤ) else [32, 16, 8])
                        (yc : ℤ)
                        (by rw [strideList_length]; push_cast; omega)
                        (by rw [strideList_length]; push_cast; omega)
                      rw [hyi2]
                      cases hF : specGet d "from" with
                      | none =>
                        simp only [haS, hmS, getInts, hselEq, hcv, hF, hsv, req,
                          except_ok_bind]
                        refine ⟨_, rfl, ?_, ?_⟩
                        · exact StInv_snoc i st hinv _ st.filters _ (yc : ℤ)
                            hinv.filtersPos hroutsOld
                            (by intro r hr; simp [node_reads] at hr)
                        · rw [isYolo_true_of d (by rw [← ht8]; exact ht), if_pos rfl]
                          show (yc : ℤ) = ((yc + 1 : ℕ) : ℤ) - 1
                          push_cast
                          omega
                      | some v =>
                        rw [hF] at hfrom
                        cases v with
                        | int n => simp [fromOk] at hfrom
                        | num q => simp [fromOk] at hfrom
                        | str s2 => simp [fromOk] at hfrom
                        | anchors ps => simp [fromOk] at hfrom
                        | ints ls2 =>
                          simp only [haS, hmS, getInts, hselEq, hcv, hF, hsv, req,
                            except_ok_bind]
                          refine ⟨_, rfl, ?_, ?_⟩
                          · exact StInv_snoc i st hinv _ st.filters _ (yc : ℤ)
                              hinv.filtersPos hroutsOld
                              (by intro r hr; simp [node_reads] at hr)
                          · rw [isYolo_true_of d (by rw [← ht8]; exact ht), if_pos rfl]
                            show (yc : ℤ) = ((yc + 1 : ℕ) : ℤ) - 1
                            push_cast
                            omega
                    · rw [if_neg ht8] at hwf ⊢
                      by_cases ht9 : t = "dropout"
                      · rw [if_pos ht9] at hwf ⊢
                        cases hP : specGet d "probability" with
                        | none =>
                          rw [hP] at hwf
                          simp [probOk] at hwf
                        | some v =>
                          rw [hP] at hwf
                          cases v with
                          | str s2 => simp [probOk] at hwf
                          | ints ns => simp [probOk] at hwf
                          | anchors ps => simp [probOk] at hwf
                          | int n =>
                            simp only [probOk, Bool.and_eq_true] at hwf
                            have h0 : (0 : ℚ) ≤ (n : ℚ) := of_decide_eq_true hwf.1
                            have h1 : ((n : ℚ)) ≤ 1 := of_decide_eq_true hwf.2
                            simp only [hP, except_ok_bind]
                            rw [if_neg (by
                              simp only [Bool.or_eq_true, decide_eq_true_eq]
                              rintro (h | h)
                              · exact absurd h (not_lt.mpr h0)
                              · exact absurd h (not_lt.mpr h1))]
                            refine ⟨_, rfl, ?_, ?_⟩
                            · exact StInv_snoc i st hinv _ st.filters _ st.yoloIndex
                                hinv.filtersPos hroutsOld
                                (by intro r hr; simp [node_reads] at hr)
                            · rw [isYolo_false_of d t ht (by rw [ht9]; decide),
                                if_neg Bool.false_ne_true]
                              exact hyi
                          | num q =>
                            simp only [probOk, Bool.and_eq_true] at hwf
                            have h0 : (0 : ℚ) ≤ q := of_decide_eq_true hwf.1
                            have h1 : q ≤ 1 := of_decide_eq_true hwf.2
                            simp only [hP, except_ok_bind]
                            rw [if_neg (by
                              simp only [Bool.or_eq_true, decide_eq_true_eq]
                              rintro (h | h)
                              · exact absurd h (not_lt.mpr h0)
                              · exact absurd h (not_lt.mpr h1))]
                            refine ⟨_, rfl, ?_, ?_⟩
                            · exact StInv_snoc i st hinv _ st.filters _ st.yoloIndex
                                hinv.filtersPos hroutsOld
                                (by intro r hr; simp [node_reads] at hr)
                            · rw [isYolo_false_of d t ht (by rw [ht9]; decide),
                                if_neg Bool.false_ne_true]
                              exact hyi
                      · rw [if_neg ht9] at hwf ⊢
                        refine ⟨_, rfl, ?_, ?_⟩
                        · exact StInv_snoc i st hinv _ st.filters _ st.yoloIndex
                            hinv.filtersPos hroutsOld
                            (by intro r hr; simp [node_reads] at hr)
                        · rw [isYolo_false_of d t ht ht8, if_neg Bool.false_ne_true]
                          exact hyi

theorem cm_go_ok (cfgName : String) (imageH imageW : ℤ) (onnx : Bool)
    (alldefs : List LayerSpec) :
    ∀ (rest : List LayerSpec) (i yc : ℕ) (st : BState),
      wfList i yc rest = true → StInv i st → st.yoloIndex = (yc : ℤ) - 1 →
      ∃ st2, cm_go cfgName imageH imageW onnx alldefs i rest st = .ok st2
        ∧ StInv (i + rest.length) st2 := by
  intro rest
  induction rest with
  | nil =>
    intro i yc st hwf hinv hyi
    exact ⟨st, rfl, by simpa using hinv⟩
  | cons dd rest2 ih =>
    intro i yc st hwf hinv hyi
    simp only [wfList, Bool.and_eq_true] at hwf
    obtain ⟨h1, h2⟩ := hwf
    obtain ⟨st2, hstep, hinv2, hyi2⟩ :=
      cm_step_ok cfgName imageH imageW onnx alldefs i yc dd st h1 hinv hyi
    obtain ⟨st3, hgo, hinv3⟩ :=
      ih (i + 1) (if isYolo dd then yc + 1 else yc) st2 h2 hinv2 hyi2
    refine ⟨st3, ?_, ?_⟩
    · simp only [cm_go, hstep, except_ok_bind]
      exact hgo
    · have he : i + (dd :: rest2).length = i + 1 + rest2.length := by
        simp only [List.length_cons]
        omega
      rw [he]
      exact hinv3

/-- C9: on a well-formed configuration (every block's fields present and
usable, sizes and strides positive, route and shortcut references strictly
backward, at most three yolo heads with masks indexing the anchor list),
`_create_modules` succeeds with one module per block, a routs_binary mask
of the same length, and every built node reading only strictly earlier
outputs at forward time. -/
theorem C9_construction_ok (specs : List LayerSpec) (cfgName : String)
    (imageH imageW : ℤ) (gray onnx : Bool)
    (hwf : wfSpecs specs = true) :
    ∃ nodes mask, create_modules specs cfgName imageH imageW gray onnx
        = .ok (nodes, mask)
      ∧ nodes.length = specs.length - 1
      ∧ mask.length = specs.length - 1
      ∧ (∀ j n, nodes[j]? = some n → ∀ r ∈ node_reads j n, 0 ≤ r ∧ r < (j : ℤ)) := by
  cases specs with
  | nil => simp [wfSpecs] at hwf
  | cons hd defs =>
    simp only [wfSpecs, Bool.and_eq_true] at hwf
    obtain ⟨hne, hlist⟩ := hwf
    have hd0 : defs.length ≠ 0 := by
      intro hc
      rw [List.length_eq_zero] at hc
      rw [hc] at hne
      simp at hne
    have hinv0 : StInv 0 ⟨[if gray then 1 else 3], [], -1, 3, []⟩ := by
      refine ⟨rfl, ?_, rfl, ?_, ?_, by norm_num⟩
      · intro f hf
        rw [List.mem_singleton] at hf
        cases gray with
        | true => simp at hf; omega
        | false => simp at hf; omega
      · intro r hr
        exact absurd hr (List.not_mem_nil r)
      · intro j n hjn
        simp at hjn
    have hyi0 : (⟨[if gray then 1 else 3], [], -1, 3, []⟩ : BState).yoloIndex
        = ((0 : ℕ) : ℤ) - 1 := by
      show (-1 : ℤ) = ((0 : ℕ) : ℤ) - 1
      norm_num
    obtain ⟨st2, hgo, hinv2⟩ := cm_go_ok cfgName imageH imageW onnx defs defs 0 0
      ⟨[if gray then 1 else 3], [], -1, 3, []⟩ hlist hinv0 hyi0
    have hL : 0 + defs.length = defs.length := by omega
    rw [hL] at hinv2
    have hroutsB : ∀ r ∈ st2.routs, 0 ≤ r
        ∧ r < (((List.replicate (if defs.length = 0 then 1 else defs.length)
            false).length : ℕ) : ℤ) := by
      intro r hr
      have := hinv2.routsOk r hr
      rw [List.length_replicate, if_neg hd0]
      omega
    obtain ⟨mask, hmask, hmlen⟩ := set_routs_ok st2.routs _ hroutsB
    refine ⟨st2.nodes, mask, ?_, ?_, ?_, ?_⟩
    · simp only [create_modules, hgo, hmask, except_ok_bind]
    · rw [hinv2.ndLen]
      simp
    · rw [hmlen, List.length_replicate, if_neg hd0]
      simp
    · exact hinv2.reads

theorem C9_construction_ok_witness :
    ∃ nodes mask, create_modules
        [[(PyKey.str "type", CfgVal.str "net")],
         [(PyKey.str "type", CfgVal.str "BatchNorm2d")]]
        "model.cfg" 416 416 false false = .ok (nodes, mask)
      ∧ nodes.length = 1
      ∧ mask.length = 1
      ∧ (∀ j n, nodes[j]? = some n → ∀ r ∈ node_reads j n, 0 ≤ r ∧ r < (j : ℤ)) := by
  have h := C9_construction_ok
    [[(PyKey.str "type", CfgVal.str "net")],
     [(PyKey.str "type", CfgVal.str "BatchNorm2d")]]
    "model.cfg" 416 416 false false (by decide)
  simpa using h

/-- C9 counterexample: a spec list using only supported fields (type,
from) whose shortcut at position 1 references the absolute index 5:
construction succeeds, one node per entry, and the built fusion node at
index 1 reads the output of node 5 -- a forward reference. -/
theorem C9_counterexample :
    create_modules
      [[(PyKey.str "type", CfgVal.str "net")],
       [(PyKey.str "type", CfgVal.str "BatchNorm2d")],
       [(PyKey.str "type", CfgVal.str "shortcut"), (PyKey.str "from", CfgVal.ints [5])],
       [(PyKey.str "type", CfgVal.str "BatchNorm2d")],
       [(PyKey.str "type", CfgVal.str "BatchNorm2d")],
       [(PyKey.str "type", CfgVal.str "BatchNorm2d")],
       [(PyKey.str "type", CfgVal.str "BatchNorm2d")]]
      "model.cfg" 416 416 false false
      = .ok ([.batchnorm 3 true, .weightedFusion [5] false, .batchnorm 3 false,
              .batchnorm 3 false, .batchnorm 3 false, .batchnorm 3 false],
             [false, false, false, false, false, true])
  ∧ node_reads 1 (.weightedFusion [5] false) = [5]
  ∧ ¬((5 : ℤ) < (1 : ℕ)) := by
  refine ⟨by decide, by decide, by decide⟩

/-! ### Lemmas and theorems for C6 -/

theorem perHead_classes (nc : ℤ) (iou_t : ℚ) (h : YoloHead) (targets : List Tgt)
    (pl : HeadTargets) (hok : perHead nc iou_t h targets = .ok pl) :
    ∀ cv ∈ pl.tcls, cv < nc := by
  simp only [perHead] at hok
  split at hok
  · cases hok
  · next hcond =>
    injection hok with h2
    subst h2
    intro cv hcv
    by_cases hk : (keptPairs iou_t h.anchorVec (targets.map (fun t =>
        { t with cx := t.cx * (h.nx : ℚ), cy := t.cy * (h.ny : ℚ),
                 bw := t.bw * (h.nx : ℚ), bh := t.bh * (h.ny : ℚ) }))).isEmpty
    · rw [List.isEmpty_iff] at hk
      simp only [hk, List.map_nil] at hcv
      cases hcv
    · rw [Bool.not_eq_true] at hk
      have hany : ((keptPairs iou_t h.anchorVec (targets.map (fun t =>
          { t with cx := t.cx * (h.nx : ℚ), cy := t.cy * (h.ny : ℚ),
                   bw := t.bw * (h.nx : ℚ), bh := t.bh * (h.ny : ℚ) }))).map
            (fun p => pyLong p.2.cid)).any (fun v => decide (nc ≤ v)) = false := by
        by_contra hcontra
        rw [Bool.not_eq_false] at hcontra
        exact hcond (by rw [hk, hcontra]; rfl)
      rw [List.any_eq_false] at hany
      have := hany cv hcv
      simp at this
      omega

theorem build_go_classes (nc : ℤ) (iou_t : ℚ) (ts : List Tgt) :
    ∀ (heads : List YoloHead) (rs : List HeadTargets),
      build_targets_go nc iou_t ts heads = .ok rs →
      ∀ ht ∈ rs, ∀ cv ∈ ht.tcls, cv < nc := by
  intro heads
  induction heads with
  | nil =>
    intro rs hok ht hht
    simp only [build_targets_go] at hok
    injection hok with h2
    subst h2
    cases hht
  | cons h rest ih =>
    intro rs hok ht hht cv hcv
    simp only [build_targets_go] at hok
    rcases hper : perHead nc iou_t h ts with e | r
    · rw [hper, except_error_bind] at hok
      cases hok
    · rw [hper, except_ok_bind] at hok
      rcases hgo : build_targets_go nc iou_t ts rest with e2 | rs2
      · rw [hgo, except_error_bind] at hok
        cases hok
      · rw [hgo, except_ok_bind] at hok
        injection hok with h2
        subst h2
        rcases List.mem_cons.mp hht with rfl | hm
        · exact perHead_classes nc iou_t h ts ht hper cv hcv
        · exact ih rs2 hgo ht hm cv hcv

/-- C6 (amended): whenever build_targets returns (does not raise), every
class id in the returned per-head assignments is strictly below the
model's class count -- the assert fires exactly when an out-of-range
class id survives the anchor-IoU filter at some head, so assignments can
never carry a corrupting class id; but a target whose shape is rejected by
the IoU threshold at every head escapes the check entirely (and produces
no assignment), so build_targets does not fail for every out-of-range
class id present in the input targets (see the counterexample). -/
theorem C6_classes_in_range (m : TModel) (ts : List Tgt) (rs : List HeadTargets)
    (hok : build_targets m ts = .ok rs) :
    ∀ ht ∈ rs, ∀ cv ∈ ht.tcls, cv < m.num_classes :=
  build_go_classes m.num_classes m.iou_t ts m.heads rs hok

/-- Witness for C6: a one-head model with three classes and one matched
target of class 1. -/
theorem C6_classes_in_range_witness :
    build_targets ⟨[⟨[(1, 1)], 2, 2⟩], 3, 1 / 2⟩ [⟨0, 1, 1 / 2, 1 / 2, 1 / 2, 1 / 2⟩]
      = .ok [⟨[1], [(0, 0, 1, 1)], [(0, 0, 1, 1)], [(1, 1)]⟩]
  ∧ (1 : ℤ) < 3 :=
  have heval : build_targets ⟨[⟨[(1, 1)], 2, 2⟩], 3, 1 / 2⟩
      [⟨0, 1, 1 / 2, 1 / 2, 1 / 2, 1 / 2⟩]
      = .ok [⟨[1], [(0, 0, 1, 1)], [(0, 0, 1, 1)], [(1, 1)]⟩] := by
    norm_num [build_targets, build_targets_go, perHead, keptPairs, wh_iou,
      pyLong, clampZ, min_def, max_def, List.filter, except_ok_bind]
  ⟨heval,
    C6_classes_in_range ⟨[⟨[(1, 1)], 2, 2⟩], 3, 1 / 2⟩
      [⟨0, 1, 1 / 2, 1 / 2, 1 / 2, 1 / 2⟩]
      [⟨[1], [(0, 0, 1, 1)], [(0, 0, 1, 1)], [(1, 1)]⟩] heval
      ⟨[1], [(0, 0, 1, 1)], [(0, 0, 1, 1)], [(1, 1)]⟩ (by decide) 1 (by decide)⟩

/-- C6 counterexample: a targets tensor containing a class id (5) that is
out of range for the one-class model, attached to a box whose shape fails
the anchor-IoU threshold: build_targets returns normally (with an
assignment for the other, in-range target) instead of failing loudly. -/
theorem C6_counterexample :
    build_targets ⟨[⟨[(1, 1)], 2, 2⟩], 1, 1 / 2⟩
      [⟨0, 5, 1 / 2, 1 / 2, 1 / 20, 1 / 20⟩, ⟨0, 0, 1 / 2, 1 / 2, 1 / 2, 1 / 2⟩]
      = .ok [⟨[0], [(0, 0, 1, 1)], [(0, 0, 1, 1)], [(1, 1)]⟩]
  ∧ ¬(pyLong (5 : ℚ) < (1 : ℤ)) := by
  constructor
  · norm_num [build_targets, build_targets_go, perHead, keptPairs, wh_iou,
      pyLong, clampZ, min_def, max_def, List.filter, except_ok_bind]
  · norm_num [pyLong]

/-- C1 counterexample: the claim says class scores are additionally
multiplied by the objectness score when the model has more than one class.
With two classes (attribute indices 5 and 6 are class logits) and all-zero
raw logits, the code returns sigmoid(0) = 1/2 for the class score at
attribute 5, while the claimed value is sigmoid(0) * sigmoid(0) = 1/4. -/
theorem C1_counterexample :
    yolo_decode (fun _ => 2) (fun _ => 3) 32 (fun _ _ => 0) ⟨0, 0, 0⟩ 5 = 1 / 2
  ∧ sigmoid 0 * sigmoid 0 = 1 / 4
  ∧ ((1 : ℝ) / 2 ≠ 1 / 4) := by
  have hs : sigmoid 0 = 1 / 2 := by
    simp [sigmoid, Real.exp_zero]
    norm_num
  refine ⟨?_, ?_, by norm_num⟩
  · simp [yolo_decode, sigmoid_conf, scale_xywh, decode_wh, decode_xy, hs]
  · rw [hs]; norm_num

end Yolo
